import Mathlib

/-!
# Request Executor (`src/main.go`)

A shallow embedding of the one-shot HTTP adapter: the parameter extraction
loop, the construction of the request (verb, body, headers), the response
classification and the encoding of the `Output` document, followed by the
properties proved about them.

Go strings that reach `main` come out of `encoding/json`, which yields valid
UTF-8, so a Go string is a Lean `String` (a sequence of Unicode scalar values).
The standard-library functions `main` calls are modelled from their Go sources:
`strings.TrimSpace`, `strings.ToUpper`, `strings.Split`, `strings.SplitN`,
`fmt.Sscanf` with the verb `%d`, `net/http.Header.Set` and the string encoder of
`encoding/json`. The Unicode upper-case table, the URL/method validation done by
`http.NewRequest`, the network (`client.Do`), the JSON parser applied to the
response body and the JSON encoder of the result payload are parameters.
-/

namespace ComponentApi

/-! ## Library functions -/

/-- The rune class `unicode.IsSpace` (the same set as the table `space` of `fmt/scan.go`). -/
def isSpace (r : Char) : Bool :=
  let n := r.toNat
  (0x09 ≤ n && n ≤ 0x0d) || n == 0x20 || n == 0x85 || n == 0xa0 || n == 0x1680 ||
    (0x2000 ≤ n && n ≤ 0x200a) || n == 0x2028 || n == 0x2029 || n == 0x202f ||
    n == 0x205f || n == 0x3000

/-- The runes of `strings.TrimSpace s`: leading and trailing white space removed. -/
def trimRunes (l : List Char) : List Char :=
  (l.dropWhile isSpace).rdropWhile isSpace

/-- Go `strings.TrimSpace`. -/
def TrimSpace (s : String) : String := ⟨trimRunes s.data⟩

/-- Go `strings.ToUpper`: `unicode.ToUpper` (the parameter `up`) applied to every rune. -/
def ToUpper (up : Char → Char) (s : String) : String := ⟨s.data.map up⟩

/-- Go `strings.Index` for a one-rune separator, returned as the text before the first
occurrence and the text after it. -/
def cut (sep : Char) : List Char → Option (List Char × List Char)
  | [] => none
  | c :: cs =>
    if c = sep then some ([], cs)
    else match cut sep cs with
      | none => none
      | some (a, b) => some (c :: a, b)

/-- The loop of `strings.genSplit`: at most `n` cuts, the remainder is the last element. -/
def genSplitLoop (sep : Char) : Nat → List Char → List (List Char)
  | 0, s => [s]
  | n + 1, s =>
    match cut sep s with
    | none => [s]
    | some (a, rest) => a :: genSplitLoop sep n rest

/-- Go `strings.genSplit(s, sep, 0, n)` for a one-rune separator. -/
def genSplit (s : List Char) (sep : Char) (n : Int) : List (List Char) :=
  if n = 0 then []
  else
    let n1 : Nat := if n < 0 then s.count sep + 1 else n.toNat
    let len := (String.mk s).utf8ByteSize
    let n2 : Nat := if n1 > len + 1 then len + 1 else n1
    genSplitLoop sep (n2 - 1) s

/-- Go `strings.Split(s, sep)`. -/
def Split (s : String) (sep : Char) : List String :=
  (genSplit s.data sep (-1)).map String.mk

/-- Go `strings.SplitN(s, sep, n)`. -/
def SplitN (s : String) (sep : Char) (n : Int) : List String :=
  (genSplit s.data sep n).map String.mk

/-- The limit `hugeWid` of `fmt/scan.go`: the scanner reads at most this many runes. -/
def hugeWid : Nat := 1073741824

/-- The method `ss.SkipSpace` with `nlIsSpace = false`: `none` is the error
"unexpected newline". -/
def SkipSpace : List Char → Option (List Char)
  | [] => some []
  | r :: rest =>
    if r = '\r' ∧ rest.head? = some '\n' then SkipSpace rest
    else if r = '\n' then none
    else if isSpace r then SkipSpace rest
    else some (r :: rest)

/-- Value of a run of decimal digits. -/
def digitsValue (ds : List Char) : Nat :=
  ds.foldl (fun acc c => acc * 10 + (c.toNat - 48)) 0

/-- Go `strconv.ParseInt(tok, 10, 64)` on a token made of an optional sign and decimal
digits: `none` is the range error. -/
def ParseInt (neg : Bool) (ds : List Char) : Option Int :=
  let i : Int := if neg then -(digitsValue ds : Int) else (digitsValue ds : Int)
  if -9223372036854775808 ≤ i ∧ i ≤ 9223372036854775807 then some i else none

/-- The method `ss.scanInt` for the verb `d` and a 64-bit `int`: skip spaces, fail at
the end of input, accept one sign, require at least one decimal digit, take all that
follow, convert. -/
def scanInt (inp : List Char) : Option Int :=
  match SkipSpace inp with
  | none => none
  | some [] => none
  | some (c :: cs) =>
    let neg := decide (c = '-')
    let r1 := if c = '+' ∨ c = '-' then cs else c :: cs
    let ds := r1.takeWhile Char.isDigit
    if ds = [] then none else ParseInt neg ds

/-- Go `fmt.Sscanf(str, "%d", &v)`: the value stored in `v`, or `none` when the scan
fails and `v` is left alone. Input after the number is not looked at. -/
def Sscanf_d (str : String) : Option Int :=
  match SkipSpace (str.data.take hugeWid) with
  | none => none
  | some r => scanInt r

/-- The byte class `validHeaderFieldByte` of `net/textproto` (RFC 7230 token characters). -/
def validHeaderFieldByte (c : Char) : Bool :=
  c.isAlphanum || "!#$%&\x27*+-.^_\x60|~".data.contains c

/-- The canonicalising loop of `canonicalMIMEHeaderKey`: upper case at the start and
after each hyphen, lower case elsewhere. -/
def canonLoop : Bool → List Char → List Char
  | _, [] => []
  | upper, c :: cs =>
    let c1 := if upper && c.isLower then c.toUpper
      else if !upper && c.isUpper then c.toLower else c
    c1 :: canonLoop (c1 == '-') cs

/-- Go `textproto.CanonicalMIMEHeaderKey`: a key with a byte that is not a token
character is returned as it is. -/
def CanonicalMIMEHeaderKey (s : String) : String :=
  if s.data.all validHeaderFieldByte then ⟨canonLoop true s.data⟩ else s

/-- Go `http.Header`, a map from header name to its values. -/
abbrev Header := String → Option (List String)

/-- The empty header map of a fresh request. -/
def Header.empty : Header := fun _ => none

/-- Go `Header.Set`: the canonical form of `key` now maps to the single value `value`. -/
def Header.Set (h : Header) (key value : String) : Header :=
  fun k => if k = CanonicalMIMEHeaderKey key then some [value] else h k

/-- Go `int64` wrap-around. -/
def wrapInt64 (x : Int) : Int :=
  (x + 9223372036854775808) % 18446744073709551616 - 9223372036854775808

/-- The expression `time.Duration(timeout) * time.Second`, in nanoseconds. -/
def timeDuration (timeout : Int) : Int := wrapInt64 (timeout * 1000000000)

/-! ## Data model -/

/-- One element of `Input.Params`. -/
structure Param where
  InputName : String
  CompValue : String
  deriving DecidableEq, Repr

/-- The local variables of `main` set by the extraction loop. -/
structure Config where
  url : String
  method : String
  headers : String
  body : String
  timeout : Int
  contentType : String
  deriving DecidableEq, Repr

/-- The initial values of the variables (lines 33-40). -/
def Config.init : Config :=
  { url := "", method := "", headers := "", body := "", timeout := 30,
    contentType := "application/json" }

/-- One iteration of the extraction loop: the `switch p.InputName` (lines 43-58). -/
def step (up : Char → Char) (c : Config) (p : Param) : Config :=
  if p.InputName = "url" then { c with url := TrimSpace p.CompValue }
  else if p.InputName = "method" then { c with method := ToUpper up (TrimSpace p.CompValue) }
  else if p.InputName = "headers" then { c with headers := TrimSpace p.CompValue }
  else if p.InputName = "body" then { c with body := TrimSpace p.CompValue }
  else if p.InputName = "timeout" then
    match Sscanf_d p.CompValue with
    | some v => { c with timeout := v }
    | none => c
  else if p.InputName = "contenttype" then
    if TrimSpace p.CompValue ≠ "" then { c with contentType := TrimSpace p.CompValue } else c
  else c

/-- The extraction loop over `input.Params` (lines 42-59). -/
def extract (up : Char → Char) (ps : List Param) : Config :=
  ps.foldl (step up) Config.init

/-! ## Request construction -/

/-- One iteration of the header loop (lines 98-105): `strings.SplitN(pair, ":", 2)` and,
when it has two parts, `req.Header.Set` of the trimmed key and value. -/
def setPair (h : Header) (pair : String) : Header :=
  match SplitN pair ':' 2 with
  | [k, v] => h.Set (TrimSpace k) (TrimSpace v)
  | _ => h

/-- The block "Parse and set custom headers" (lines 96-106). -/
def setCustomHeaders (h : Header) (headers : String) : Header :=
  if headers ≠ "" then (Split headers ',').foldl setPair h else h

/-- The request handed to `client.Do`: what `http.NewRequest` was given, and the header
map after lines 90-106. -/
structure Request where
  Method : String
  URL : String
  Body : Option String
  Header : Header

/-- Response body as read by `io.ReadAll`. -/
abbrev Bytes := List (Fin 256)

/-- The fields of `http.Response` that `main` reads; `Body` is the result of `io.ReadAll`. -/
structure Response where
  StatusCode : Int
  Status : String
  Header : Header
  Body : Except String Bytes

/-- What lies outside the program: the Unicode upper-case table, the checks of
`http.NewRequest` (`some details` is its error), the HTTP exchange done by `client.Do`
with a client timeout in nanoseconds, and `json.Unmarshal` into an `interface` value. -/
structure World (J : Type) where
  unicodeToUpper : Char → Char
  newRequestError : String → String → Option String
  Do : Int → Request → Except String Response
  Unmarshal : Bytes → Option J

/-- The `body` entry of the result map: the parsed JSON value or `string(respBody)`. -/
inductive BodyValue (J : Type) where
  | json (v : J)
  | text (b : Bytes)

/-- The map built on the success path (lines 127-132 and 136-141). -/
structure ResultMap (J : Type) where
  status_code : Int
  status : String
  headers : Header
  body : BodyValue J

/-- The struct `Output`; `Result = none` is the nil interface. -/
structure Output (J : Type) where
  Result : Option (ResultMap J)
  Error : String

/-- One execution of `main`: the `Output` value given to the encoder, the arguments of
the `http.NewRequest` call when it is reached (method, url, body; `none` is the nil
body), and the client timeout and request of the `client.Do` call when it is reached. -/
structure Run (J : Type) where
  out : Output J
  newRequest : Option (String × String × Option String)
  sent : Option (Int × Request)

/-- The verb given to `http.NewRequest` (lines 66-68). -/
def verbOf (c : Config) : String := if c.method = "" then "GET" else c.method

/-- The body given to `http.NewRequest` (lines 79-83); `none` is the nil body. -/
def bodyOf (c : Config) : Option String :=
  if verbOf c = "GET" ∨ verbOf c = "DELETE" then none else some c.body

/-- The header map of the request after lines 90-106. -/
def headerOf (c : Config) : Header :=
  setCustomHeaders
    (if verbOf c = "POST" ∨ verbOf c = "PUT" ∨ verbOf c = "PATCH" then
      Header.empty.Set "Content-Type" c.contentType
    else Header.empty)
    c.headers

/-- The function `main` (lines 26-144) on the result of decoding standard input. -/
def main {J : Type} (w : World J) (input : Except String (List Param)) : Run J :=
  match input with
  | .error err => ⟨⟨none, "failed to decode input: " ++ err⟩, none, none⟩
  | .ok params =>
    let c := extract w.unicodeToUpper params
    if c.url = "" then ⟨⟨none, "url parameter is required"⟩, none, none⟩
    else
      let timeout := timeDuration c.timeout
      match w.newRequestError (verbOf c) c.url with
      | some err =>
        ⟨⟨none, "failed to create request: " ++ err⟩, some (verbOf c, c.url, bodyOf c), none⟩
      | none =>
        let req : Request := ⟨verbOf c, c.url, bodyOf c, headerOf c⟩
        match w.Do timeout req with
        | .error err =>
          ⟨⟨none, "request failed: " ++ err⟩, some (verbOf c, c.url, bodyOf c),
            some (timeout, req)⟩
        | .ok resp =>
          match resp.Body with
          | .error err =>
            ⟨⟨none, "failed to read response: " ++ err⟩, some (verbOf c, c.url, bodyOf c),
              some (timeout, req)⟩
          | .ok respBody =>
            match w.Unmarshal respBody with
            | some jsonResult =>
              ⟨⟨some ⟨resp.StatusCode, resp.Status, resp.Header, .json jsonResult⟩, ""⟩,
                some (verbOf c, c.url, bodyOf c), some (timeout, req)⟩
            | none =>
              ⟨⟨some ⟨resp.StatusCode, resp.Status, resp.Header, .text respBody⟩, ""⟩,
                some (verbOf c, c.url, bodyOf c), some (timeout, req)⟩

/-! ## Encoding of the output document -/

/-- The table `htmlSafeSet` of `encoding/json`: ASCII from space up, except the double
quote, the ampersand, the angle brackets and the backslash. -/
def htmlSafe (c : Char) : Bool :=
  let n := c.toNat
  0x20 ≤ n && n < 0x80 && n != 0x22 && n != 0x26 && n != 0x3c && n != 0x3e && n != 0x5c

/-- Lower-case hexadecimal digit. -/
def hexDigit (n : Nat) : Char := "0123456789abcdef".data.getD n '0'

/-- What `encoding/json` (Go 1.22 and later, HTML escaping on) writes for one rune of a
string. -/
def appendRune (c : Char) : List Char :=
  let n := c.toNat
  if n < 0x80 then
    if htmlSafe c then [c]
    else if n = 0x5c ∨ n = 0x22 then ['\\', c]
    else if n = 0x08 then ['\\', 'b']
    else if n = 0x0c then ['\\', 'f']
    else if n = 0x0a then ['\\', 'n']
    else if n = 0x0d then ['\\', 'r']
    else if n = 0x09 then ['\\', 't']
    else ['\\', 'u', '0', '0', hexDigit (n / 16), hexDigit (n % 16)]
  else if n = 0x2028 ∨ n = 0x2029 then ['\\', 'u', '2', '0', '2', hexDigit (n % 16)]
  else [c]

/-- A Go string as a JSON string literal. -/
def encodeString (s : String) : String :=
  ⟨Char.ofNat 34 :: ((s.data.map appendRune).flatten ++ [Char.ofNat 34])⟩

/-- The text `json.NewEncoder(os.Stdout).Encode` writes for an `Output`: both struct
fields in declaration order under their tags `result` and `error` (neither tag has
`omitempty`), a nil `Result` as `null`, and a final newline. `encResult` is the
encoding of a non-nil result map. -/
def encodeOutput {J : Type} (encResult : ResultMap J → String) (o : Output J) : String :=
  "\x7b\"result\":" ++
    (match o.Result with
      | none => "null"
      | some r => encResult r) ++
    ",\"error\":" ++ encodeString o.Error ++ "\x7d\n"

/-- The rune `utf8.RuneError`, U+FFFD. -/
def RuneError : Nat := 0xFFFD

/-- Go `utf8.DecodeRuneInString` on the bytes `p`: the rune at the start of `p` and its
width in bytes, `(RuneError, 1)` when no valid encoding starts there. -/
def DecodeRune (p : List Nat) : Nat × Nat :=
  match p with
  | [] => (RuneError, 0)
  | p0 :: _ =>
    if p0 < 0x80 then (p0, 1)
    else if p0 < 0xC2 ∨ 0xF4 < p0 then (RuneError, 1)
    else
      let sz : Nat := if p0 < 0xE0 then 2 else if p0 < 0xF0 then 3 else 4
      let lo : Nat := if p0 = 0xE0 then 0xA0 else if p0 = 0xF0 then 0x90 else 0x80
      let hi : Nat := if p0 = 0xED then 0x9F else if p0 = 0xF4 then 0x8F else 0xBF
      if p.length < sz then (RuneError, 1)
      else
        let p1 := p.getD 1 0
        if p1 < lo ∨ hi < p1 then (RuneError, 1)
        else if sz ≤ 2 then (p0 % 32 * 64 + p1 % 64, 2)
        else
          let p2 := p.getD 2 0
          if p2 < 0x80 ∨ 0xBF < p2 then (RuneError, 1)
          else if sz ≤ 3 then (p0 % 16 * 4096 + p1 % 64 * 64 + p2 % 64, 3)
          else
            let p3 := p.getD 3 0
            if p3 < 0x80 ∨ 0xBF < p3 then (RuneError, 1)
            else (p0 % 8 * 262144 + p1 % 64 * 4096 + p2 % 64 * 64 + p3 % 64, 4)

/-- The loop of `appendString` of `encoding/json` over the bytes of a Go string; `skip`
counts the bytes of the current rune still to be passed over. A byte below 0x80 is
written as `appendRune` says, a byte at which no valid UTF-8 encoding starts as
`\ufffd`, and any other rune as itself (U+2028 and U+2029 escaped). -/
def appendStringLoop : Nat → List Nat → List Char
  | _, [] => []
  | skip + 1, _ :: rest => appendStringLoop skip rest
  | 0, p0 :: rest =>
    if p0 < 0x80 then appendRune (Char.ofNat p0) ++ appendStringLoop 0 rest
    else if (DecodeRune (p0 :: rest)).1 = RuneError ∧ (DecodeRune (p0 :: rest)).2 = 1 then
      ['\\', 'u', 'f', 'f', 'f', 'd'] ++ appendStringLoop 0 rest
    else
      appendRune (Char.ofNat (DecodeRune (p0 :: rest)).1) ++
        appendStringLoop ((DecodeRune (p0 :: rest)).2 - 1) rest

/-- The JSON string literal written for the Go string `string(respBody)`. -/
def encodeBytes (b : Bytes) : String :=
  ⟨Char.ofNat 34 :: (appendStringLoop 0 (b.map Fin.val) ++ [Char.ofNat 34])⟩

/-- A Go `int` in decimal, as `encoding/json` writes it. -/
def encodeInt (n : Int) : String :=
  match n with
  | Int.ofNat m => ⟨Nat.toDigits 10 m⟩
  | Int.negSucc m => ⟨'-' :: Nat.toDigits 10 (m + 1)⟩

/-- The text `encoding/json` writes for the result map of the success path: its four
keys in sorted order. `encJSON` is the encoding of a parsed JSON value and `encHeader`
that of an `http.Header`. -/
def encodeResult {J : Type} (encJSON : J → String) (encHeader : Header → String)
    (r : ResultMap J) : String :=
  "\x7b\"body\":" ++
    (match r.body with
      | .json v => encJSON v
      | .text b => encodeBytes b) ++
    ",\"headers\":" ++ encHeader r.headers ++
    ",\"status\":" ++ encodeString r.status ++
    ",\"status_code\":" ++ encodeInt r.status_code ++ "\x7d"

/-- A world for examples that answers every request `200 OK` with the body `body`,
which parses as JSON to `parsed` if at all. -/
def bodyWorld (body : Bytes) (parsed : Option Nat) : World Nat :=
  { unicodeToUpper := Char.toUpper
    newRequestError := fun _ _ => none
    Do := fun _ _ => .ok ⟨200, "200 OK", Header.empty, .ok body⟩
    Unmarshal := fun b => if b = body then parsed else none }

/-- Standard output of an execution. -/
def stdout {J : Type} (encResult : ResultMap J → String) (r : Run J) : String :=
  encodeOutput encResult r.out

/-- A world for examples: ASCII upper-casing, every request accepted and answered
`200 OK` with the body `hi`, which is not JSON. -/
def exampleWorld : World Unit :=
  { unicodeToUpper := Char.toUpper
    newRequestError := fun _ _ => none
    Do := fun _ _ => .ok ⟨200, "200 OK", Header.empty, .ok [104, 105]⟩
    Unmarshal := fun _ => none }

example : stdout (fun _ => "R") (main exampleWorld (.ok [])) =
    "\x7b\"result\":null,\"error\":\"url parameter is required\"\x7d\n" := by decide
example : (main exampleWorld (.ok [⟨"url", "http://a"⟩, ⟨"method", "post"⟩, ⟨"body", " x "⟩])).newRequest
    = some ("POST", "http://a", some "x") := by decide
example : ((main exampleWorld (.ok [⟨"url", "http://a"⟩, ⟨"headers", "X-Foo: bar, X-Bad-Header, X-Baz : qux"⟩])).sent.map
    (fun p => (p.1, p.2.Header "X-Foo", p.2.Header "X-Baz", p.2.Header "X-Bad-Header", p.2.Header "")))
    = some (30000000000, some ["bar"], some ["qux"], none, none) := by rfl
example : ((main exampleWorld (.ok [⟨"url", "http://a"⟩, ⟨"headers", "a:b, : "⟩])).sent.map
    (fun p => (p.2.Header "A", p.2.Header "")))
    = some (some ["b"], some [""]) := by rfl
example : encodeString "a<b\"\n" = "\"a\\u003cb\\\"\\n\"" := by decide

/-! ## Vocabulary of the specification -/

/-- The `compvalue` of the last entry of `ps` whose `inputname` is `name`, if there is one. -/
def lastValue (name : String) (ps : List Param) : Option String :=
  ((ps.filter (fun p => p.InputName = name)).getLast?).map Param.CompValue

/-- The verb as the specification resolves it: the last `method` entry trimmed and
upper-cased, and GET when there is no `method` entry or the last one is blank. -/
def specVerb (up : Char → Char) (ps : List Param) : String :=
  match lastValue "method" ps with
  | none => "GET"
  | some v => if TrimSpace v = "" then "GET" else ToUpper up (TrimSpace v)

/-- A segment as the specification reads it: split at its first `:` only, key and value
trimmed; `none` when the segment has no `:`. -/
def specPair (seg : String) : Option (String × String) :=
  if ':' ∈ seg.data then
    some (TrimSpace ⟨seg.data.takeWhile (fun c => c != ':')⟩,
      TrimSpace ⟨(seg.data.dropWhile (fun c => c != ':')).tail⟩)
  else none

/-- The key and value pairs the specification reads off a `headers` string: the string
split on `,`, each segment that has a `:` giving one pair, in order. -/
def specHeaderPairs (headers : String) : List (String × String) :=
  ((headers.data.splitOn ',').map String.mk).filterMap specPair

/-- Setting a list of pairs on a header map one after the other, later pairs over
earlier ones. -/
def setAll (h : Header) (pairs : List (String × String)) : Header :=
  pairs.foldl (fun h kv => h.Set kv.1 kv.2) h

/-- The value of the last pair whose key names the header `name`, names being compared
in canonical form as `Header.Set` does (so without regard to letter case). -/
def lastNamed (name : String) (pairs : List (String × String)) : Option String :=
  ((pairs.filter (fun kv => CanonicalMIMEHeaderKey kv.1 = name)).getLast?).map Prod.snd

/-- A string that is, as a whole, a decimal integer: an optional sign followed by one
or more decimal digits and nothing else. -/
def isDecimalInteger (s : String) : Bool :=
  match s.data with
  | [] => false
  | c :: cs =>
    if c = '+' ∨ c = '-' then !cs.isEmpty && cs.all Char.isDigit
    else (c :: cs).all Char.isDigit

/-- A string that begins, after leading white space, with a decimal digit or with a
sign directly followed by a decimal digit. -/
def hasLeadingInteger (s : String) : Bool :=
  match s.data.dropWhile isSpace with
  | [] => false
  | c :: cs =>
    if c = '+' ∨ c = '-' then
      match cs with
      | [] => false
      | d :: _ => d.isDigit
    else c.isDigit

/-- The params with, among the entries named `name`, only the last one whose value
satisfies `eff` kept; entries with other names stay where they are. -/
def keepLastWhere (name : String) (eff : String → Bool) : List Param → List Param
  | [] => []
  | p :: ps =>
    if p.InputName = name then
      if eff p.CompValue && !(ps.any (fun q => q.InputName = name && eff q.CompValue)) then
        p :: keepLastWhere name eff ps
      else keepLastWhere name eff ps
    else p :: keepLastWhere name eff ps

/-- The params in which only the last entry named `name` is kept. -/
def keepLast (name : String) (ps : List Param) : List Param :=
  keepLastWhere name (fun _ => true) ps

/-- What makes the entries named `name` last-write-wins among those whose value
satisfies `eff`: such an entry replaces the effect of an earlier one, an entry with
another name commutes with it, and an entry whose value fails `eff` does nothing. -/
structure Overwrites (up : Char → Char) (name : String) (eff : String → Bool) : Prop where
  over : ∀ (c : Config) (p q : Param), p.InputName = name → q.InputName = name →
    eff q.CompValue = true → step up (step up c p) q = step up c q
  comm : ∀ (c : Config) (p q : Param), p.InputName = name → q.InputName ≠ name →
    step up (step up c p) q = step up (step up c q) p
  skip : ∀ (c : Config) (p : Param), p.InputName = name → eff p.CompValue = false →
    step up c p = c

/-- The integer written by an optional sign and a run of decimal digits. -/
def signedValue (sign ds : List Char) : Int :=
  if sign = ['-'] then -(digitsValue ds : Int) else (digitsValue ds : Int)

/-- A value that starts with an integer: white space without a newline, an optional
sign, a non-empty run of decimal digits that ends where `rest` begins, all of it within
the first `hugeWid` characters. -/
structure LeadingInteger (ws sign ds rest : List Char) : Prop where
  spaces : ∀ c ∈ ws, isSpace c = true ∧ c ≠ '\n'
  signs : sign = [] ∨ sign = ['+'] ∨ sign = ['-']
  digits : ds ≠ [] ∧ ∀ c ∈ ds, c.isDigit = true
  stop : ∀ c, rest.head? = some c → c.isDigit = false
  short : ws.length + sign.length + ds.length ≤ hugeWid

/-- The signed value fits a 64-bit `int`. -/
def fitsInt64 (i : Int) : Prop := -9223372036854775808 ≤ i ∧ i ≤ 9223372036854775807

/-- The UTF-8 encoding of one character. -/
def utf8Bytes (c : Char) : List Nat :=
  if c.toNat < 0x80 then [c.toNat]
  else if c.toNat < 0x800 then [0xC0 + c.toNat / 64, 0x80 + c.toNat % 64]
  else if c.toNat < 0x10000 then
    [0xE0 + c.toNat / 4096, 0x80 + c.toNat / 64 % 64, 0x80 + c.toNat % 64]
  else
    [0xF0 + c.toNat / 262144, 0x80 + c.toNat / 4096 % 64, 0x80 + c.toNat / 64 % 64,
      0x80 + c.toNat % 64]

/-- The UTF-8 encoding of a text. -/
def utf8Encode (s : List Char) : List Nat := (s.map utf8Bytes).flatten

/-! ## Basic facts about the extraction loop -/

theorem extract_append (up : Char → Char) (ps : List Param) (p : Param) :
    extract up (ps ++ [p]) = step up (extract up ps) p := by
  simp [extract, List.foldl_append]

theorem lastValue_nil (name : String) : lastValue name [] = none := rfl

theorem lastValue_append (name : String) (ps : List Param) (p : Param) :
    lastValue name (ps ++ [p]) =
      if p.InputName = name then some p.CompValue else lastValue name ps := by
  unfold lastValue
  by_cases h : p.InputName = name
  · simp [List.filter_append, h, List.filter_cons]
  · simp [List.filter_append, h, List.filter_cons]

theorem lastValue_eq_of_filter (name : String) (ps qs : List Param)
    (h : qs.filter (fun p => p.InputName = name) = ps.filter (fun p => p.InputName = name)) :
    lastValue name qs = lastValue name ps := by
  unfold lastValue
  rw [h]

/-- The resolved `url` is the trimmed value of the last `url` entry, empty without one. -/
theorem extract_url (up : Char → Char) (ps : List Param) :
    (extract up ps).url =
      match lastValue "url" ps with
      | none => ""
      | some v => TrimSpace v := by
  induction ps using List.reverseRecOn with
  | nil => rfl
  | append_singleton ps p ih =>
    rw [extract_append, lastValue_append]
    by_cases h : p.InputName = "url"
    · simp [step, h]
    · rw [if_neg h, ← ih]
      unfold step
      split_ifs <;> try rfl
      split <;> rfl

theorem append_ne_of_head {a c : String} (b : String) {x y : Char} {xs ys : List Char}
    (ha : a.data = x :: xs) (hc : c.data = y :: ys) (hxy : x ≠ y) : a ++ b ≠ c := by
  intro e
  have h := congrArg String.data e
  rw [String.data_append, ha, hc] at h
  simp at h
  exact hxy h.1

/-- When the resolved url is empty `main` stops at line 62. -/
theorem main_url_empty {J : Type} (w : World J) (ps : List Param)
    (h : (extract w.unicodeToUpper ps).url = "") :
    main w (.ok ps) = ⟨⟨none, "url parameter is required"⟩, none, none⟩ := by
  simp [main, h]

/-- When the resolved url is not empty `main` reaches `http.NewRequest` and writes
another message, if any. -/
theorem main_url_nonempty {J : Type} (w : World J) (ps : List Param)
    (h : (extract w.unicodeToUpper ps).url ≠ "") :
    (main w (.ok ps)).newRequest ≠ none ∧
      (main w (.ok ps)).out.Error ≠ "url parameter is required" := by
  unfold main
  simp only [h, if_false]
  split
  · exact ⟨by simp, append_ne_of_head _ rfl rfl (by decide)⟩
  · split
    · exact ⟨by simp, append_ne_of_head _ rfl rfl (by decide)⟩
    · split
      · exact ⟨by simp, append_ne_of_head _ rfl rfl (by decide)⟩
      · split
        · exact ⟨by simp, by show ("" : String) ≠ _; decide⟩
        · exact ⟨by simp, by show ("" : String) ≠ _; decide⟩

/-- With a non-empty url `main` calls `http.NewRequest` with the resolved verb, url and body. -/
theorem main_newRequest {J : Type} (w : World J) (ps : List Param)
    (h : (extract w.unicodeToUpper ps).url ≠ "") :
    (main w (.ok ps)).newRequest =
      some (verbOf (extract w.unicodeToUpper ps), (extract w.unicodeToUpper ps).url,
        bodyOf (extract w.unicodeToUpper ps)) := by
  unfold main
  simp only [h, if_false]
  split
  · rfl
  · split
    · rfl
    · split
      · rfl
      · split <;> rfl

/-- When `http.NewRequest` accepts the verb and url, `main` calls `client.Do`. -/
theorem main_sent_of_accepted {J : Type} (w : World J) (ps : List Param)
    (hu : (extract w.unicodeToUpper ps).url ≠ "")
    (hnr : w.newRequestError (verbOf (extract w.unicodeToUpper ps))
      (extract w.unicodeToUpper ps).url = none) :
    (main w (.ok ps)).sent =
      some (timeDuration (extract w.unicodeToUpper ps).timeout,
        ⟨verbOf (extract w.unicodeToUpper ps), (extract w.unicodeToUpper ps).url,
          bodyOf (extract w.unicodeToUpper ps), headerOf (extract w.unicodeToUpper ps)⟩) := by
  unfold main
  simp only [hu, if_false, hnr]
  split
  · rfl
  · split
    · rfl
    · split <;> rfl

/-- The `client.Do` call, when `main` makes one. -/
theorem main_sent {J : Type} (w : World J) (ps : List Param) (t : Int) (req : Request)
    (h : (main w (.ok ps)).sent = some (t, req)) :
    (extract w.unicodeToUpper ps).url ≠ "" ∧
    w.newRequestError (verbOf (extract w.unicodeToUpper ps))
      (extract w.unicodeToUpper ps).url = none ∧
    t = timeDuration (extract w.unicodeToUpper ps).timeout ∧
    req = ⟨verbOf (extract w.unicodeToUpper ps), (extract w.unicodeToUpper ps).url,
      bodyOf (extract w.unicodeToUpper ps), headerOf (extract w.unicodeToUpper ps)⟩ := by
  by_cases hu : (extract w.unicodeToUpper ps).url = ""
  · rw [main_url_empty w ps hu] at h
    simp at h
  · refine ⟨hu, ?_⟩
    cases hnr : w.newRequestError (verbOf (extract w.unicodeToUpper ps))
        (extract w.unicodeToUpper ps).url with
    | some err =>
      unfold main at h
      simp [hu, hnr] at h
    | none =>
      rw [main_sent_of_accepted w ps hu hnr] at h
      simp only [Option.some.injEq, Prod.mk.injEq] at h
      exact ⟨rfl, h.1.symm, h.2.symm⟩

/-- The `Output` of `main` once `client.Do` and `io.ReadAll` have succeeded. -/
theorem main_out_of_response {J : Type} (w : World J) (ps : List Param)
    (resp : Response) (respBody : Bytes)
    (hu : (extract w.unicodeToUpper ps).url ≠ "")
    (hnr : w.newRequestError (verbOf (extract w.unicodeToUpper ps))
      (extract w.unicodeToUpper ps).url = none)
    (hdo : w.Do (timeDuration (extract w.unicodeToUpper ps).timeout)
      ⟨verbOf (extract w.unicodeToUpper ps), (extract w.unicodeToUpper ps).url,
        bodyOf (extract w.unicodeToUpper ps), headerOf (extract w.unicodeToUpper ps)⟩ = .ok resp)
    (hbody : resp.Body = .ok respBody) :
    (main w (.ok ps)).out =
      ⟨some ⟨resp.StatusCode, resp.Status, resp.Header,
        match w.Unmarshal respBody with
        | some v => .json v
        | none => .text respBody⟩, ""⟩ := by
  unfold main
  simp only [hu, if_false, hnr, hdo, hbody]
  cases w.Unmarshal respBody <;> rfl

theorem ToUpper_eq_empty (up : Char → Char) (s : String) : ToUpper up s = "" ↔ s = "" := by
  constructor
  · intro h
    have h2 := congrArg String.data h
    simp [ToUpper] at h2
    exact String.ext h2
  · intro h
    subst h
    rfl

/-- The resolved `method` is the trimmed, upper-cased value of the last `method` entry. -/
theorem extract_method (up : Char → Char) (ps : List Param) :
    (extract up ps).method =
      match lastValue "method" ps with
      | none => ""
      | some v => ToUpper up (TrimSpace v) := by
  induction ps using List.reverseRecOn with
  | nil => rfl
  | append_singleton ps p ih =>
    rw [extract_append, lastValue_append]
    by_cases h : p.InputName = "method"
    · simp [step, h]
    · rw [if_neg h, ← ih]
      unfold step
      split_ifs <;> try rfl
      split <;> rfl

/-- The resolved `body` is the trimmed value of the last `body` entry. -/
theorem extract_body (up : Char → Char) (ps : List Param) :
    (extract up ps).body =
      match lastValue "body" ps with
      | none => ""
      | some v => TrimSpace v := by
  induction ps using List.reverseRecOn with
  | nil => rfl
  | append_singleton ps p ih =>
    rw [extract_append, lastValue_append]
    by_cases h : p.InputName = "body"
    · simp [step, h]
    · rw [if_neg h, ← ih]
      unfold step
      split_ifs <;> try rfl
      split <;> rfl

/-- The resolved `headers` is the trimmed value of the last `headers` entry. -/
theorem extract_headers (up : Char → Char) (ps : List Param) :
    (extract up ps).headers =
      match lastValue "headers" ps with
      | none => ""
      | some v => TrimSpace v := by
  induction ps using List.reverseRecOn with
  | nil => rfl
  | append_singleton ps p ih =>
    rw [extract_append, lastValue_append]
    by_cases h : p.InputName = "headers"
    · simp [step, h]
    · rw [if_neg h, ← ih]
      unfold step
      split_ifs <;> try rfl
      split <;> rfl

/-- The verb of the code is the verb of the specification. -/
theorem verbOf_extract (up : Char → Char) (ps : List Param) :
    verbOf (extract up ps) = specVerb up ps := by
  unfold verbOf specVerb
  rw [extract_method]
  cases lastValue "method" ps with
  | none => simp
  | some v =>
    by_cases h : TrimSpace v = ""
    · simp [h, ToUpper_eq_empty]
    · simp [h, ToUpper_eq_empty]

/-- A `body` entry changes neither the url nor the verb. -/
theorem step_body_frame (up : Char → Char) (c : Config) (b : String) :
    (step up c ⟨"body", b⟩).url = c.url ∧ verbOf (step up c ⟨"body", b⟩) = verbOf c := by
  constructor <;> rfl

/-! ## Splitting -/

theorem cut_eq (sep : Char) (s : List Char) :
    cut sep s =
      if sep ∈ s then
        some (s.takeWhile (fun c => c != sep), (s.dropWhile (fun c => c != sep)).tail)
      else none := by
  induction s with
  | nil => rfl
  | cons c cs ih =>
    unfold cut
    by_cases h : c = sep
    · subst h
      simp
    · have h2 : ¬ sep = c := fun e => h e.symm
      rw [if_neg h, ih]
      by_cases hm : sep ∈ cs
      · simp [hm, h, h2]
      · simp [hm, h, h2]

theorem genSplitLoop_nil (sep : Char) (n : Nat) : genSplitLoop sep n [] = [[]] := by
  cases n <;> rfl

theorem genSplitLoop_cons_sep (sep : Char) (n : Nat) (s : List Char) :
    genSplitLoop sep (n + 1) (sep :: s) = [] :: genSplitLoop sep n s := by
  simp [genSplitLoop, cut]

theorem cut_cons_ne (sep c : Char) (h : c ≠ sep) (s : List Char) :
    cut sep (c :: s) =
      match cut sep s with
      | none => none
      | some (a, b) => some (c :: a, b) := by
  rw [cut, if_neg h]

theorem genSplitLoop_succ (sep : Char) (n : Nat) (s : List Char) :
    genSplitLoop sep (n + 1) s =
      match cut sep s with
      | none => [s]
      | some (a, rest) => a :: genSplitLoop sep n rest := rfl

theorem genSplitLoop_cons_ne (sep c : Char) (h : c ≠ sep) (n : Nat) (s : List Char) :
    genSplitLoop sep n (c :: s) = (genSplitLoop sep n s).modifyHead (List.cons c) := by
  cases n with
  | zero => rfl
  | succ n =>
    rw [genSplitLoop_succ, genSplitLoop_succ, cut_cons_ne sep c h]
    cases cut sep s with
    | none => rfl
    | some ab => rfl

/-- With enough fuel the loop of `genSplit` is the list split on the separator. -/
theorem genSplitLoop_eq_splitOn (sep : Char) (s : List Char) :
    ∀ n : Nat, s.count sep ≤ n → genSplitLoop sep n s = s.splitOn sep := by
  induction s with
  | nil =>
    intro n _
    rw [genSplitLoop_nil]
    rfl
  | cons c cs ih =>
    intro n hn
    unfold List.splitOn
    rw [List.splitOnP_cons]
    by_cases h : c = sep
    · subst h
      simp only [List.count_cons_self] at hn
      obtain ⟨m, rfl⟩ : ∃ m, n = m + 1 := ⟨n - 1, by omega⟩
      rw [genSplitLoop_cons_sep, ih m (by omega)]
      simp [List.splitOn]
    · rw [List.count_cons_of_ne (fun e => h e.symm)] at hn
      rw [genSplitLoop_cons_ne sep c h, ih n hn]
      simp [List.splitOn, h]

theorem count_le_utf8Len (sep : Char) (s : List Char) :
    s.count sep ≤ String.utf8Len s := by
  induction s with
  | nil => simp
  | cons c cs ih =>
    have hc := Char.utf8Size_pos c
    rw [String.utf8Len_cons]
    by_cases h : c = sep
    · subst h
      simp only [List.count_cons_self]
      omega
    · rw [List.count_cons_of_ne (fun e => h e.symm)]
      omega

/-- Go `strings.Split` on a one-rune separator is the list split on that rune. -/
theorem Split_eq_splitOn (s : String) (sep : Char) :
    Split s sep = (s.data.splitOn sep).map String.mk := by
  unfold Split genSplit
  have h := count_le_utf8Len sep s.data
  simp only [String.utf8ByteSize_mk]
  rw [if_neg (show ¬ ((-1 : Int) = 0) by decide), if_pos (show ((-1 : Int) < 0) by decide),
    if_neg (show ¬ (s.data.count sep + 1 > String.utf8Len s.data + 1) by omega)]
  rw [Nat.add_sub_cancel, genSplitLoop_eq_splitOn sep s.data _ (le_refl _)]

/-- Go `strings.SplitN(seg, ":", 2)` has two parts exactly when the segment has a
colon, and they are the text before the first colon and the text after it. -/
theorem SplitN_two (seg : String) :
    SplitN seg ':' 2 =
      match cut ':' seg.data with
      | none => [seg]
      | some (a, b) => [⟨a⟩, ⟨b⟩] := by
  unfold SplitN genSplit
  simp only [String.utf8ByteSize_mk]
  have h2 : (2 : Int).toNat = 2 := rfl
  rw [if_neg (show ¬ ((2 : Int) = 0) by decide), if_neg (show ¬ ((2 : Int) < 0) by decide), h2]
  cases hs : seg.data with
  | nil =>
    have : seg = "" := String.ext hs
    subst this
    rfl
  | cons c cs =>
    have hc := Char.utf8Size_pos c
    rw [String.utf8Len_cons, if_neg (show ¬ (2 > String.utf8Len cs + c.utf8Size + 1) by omega)]
    show List.map String.mk (genSplitLoop ':' (0 + 1) (c :: cs)) = _
    rw [genSplitLoop_succ]
    cases hcut : cut ':' (c :: cs) with
    | none =>
      simp only [List.map_cons, List.map_nil]
      rw [← hs]
    | some ab =>
      obtain ⟨a, b⟩ := ab
      simp [genSplitLoop]

/-- One iteration of the header loop sets the pair the specification reads, if any. -/
theorem setPair_eq (h : Header) (seg : String) :
    setPair h seg =
      match specPair seg with
      | none => h
      | some kv => h.Set kv.1 kv.2 := by
  unfold setPair specPair
  rw [SplitN_two, cut_eq]
  by_cases hm : ':' ∈ seg.data
  · simp only [hm, if_true]
  · simp only [hm, if_false]

theorem foldl_setPair (segs : List String) :
    ∀ h : Header, segs.foldl setPair h = setAll h (segs.filterMap specPair) := by
  induction segs with
  | nil =>
    intro h
    rfl
  | cons seg segs ih =>
    intro h
    rw [List.foldl_cons, ih, setPair_eq]
    cases hp : specPair seg with
    | none => simp [List.filterMap_cons, hp]
    | some kv => simp [List.filterMap_cons, hp, setAll]

/-- The header loop sets exactly the pairs the specification reads off the string. -/
theorem setCustomHeaders_eq (h : Header) (headers : String) :
    setCustomHeaders h headers = setAll h (specHeaderPairs headers) := by
  unfold setCustomHeaders specHeaderPairs
  by_cases he : headers = ""
  · subst he
    rfl
  · rw [if_pos he, Split_eq_splitOn, foldl_setPair]

/-! ## Header lookup -/

theorem setAll_append (h : Header) (pairs : List (String × String)) (kv : String × String) :
    setAll h (pairs ++ [kv]) = (setAll h pairs).Set kv.1 kv.2 := by
  simp [setAll, List.foldl_append]

theorem lastNamed_append (name : String) (pairs : List (String × String))
    (kv : String × String) :
    lastNamed name (pairs ++ [kv]) =
      if CanonicalMIMEHeaderKey kv.1 = name then some kv.2 else lastNamed name pairs := by
  unfold lastNamed
  by_cases h : CanonicalMIMEHeaderKey kv.1 = name
  · simp [List.filter_append, h, List.filter_cons]
  · simp [List.filter_append, h, List.filter_cons]

/-- After a list of pairs has been set, a name maps to the value of the last pair that
names it, and to what it mapped to before when no pair names it. -/
theorem setAll_lookup (h : Header) (name : String) (pairs : List (String × String)) :
    setAll h pairs name =
      match lastNamed name pairs with
      | none => h name
      | some v => some [v] := by
  induction pairs using List.reverseRecOn with
  | nil => rfl
  | append_singleton pairs kv ih =>
    rw [setAll_append, lastNamed_append]
    unfold Header.Set
    by_cases hk : CanonicalMIMEHeaderKey kv.1 = name
    · simp [hk]
    · have hk2 : ¬ name = CanonicalMIMEHeaderKey kv.1 := fun e => hk e.symm
      rw [if_neg hk2, if_neg hk, ih]

theorem lastNamed_isSome_of_mem (name : String) (pairs : List (String × String))
    (kv : String × String) (hmem : kv ∈ pairs) (hk : CanonicalMIMEHeaderKey kv.1 = name) :
    ∃ v, lastNamed name pairs = some v := by
  unfold lastNamed
  have hne : pairs.filter (fun kv => CanonicalMIMEHeaderKey kv.1 = name) ≠ [] := by
    intro hnil
    rw [List.filter_eq_nil_iff] at hnil
    exact absurd (by simpa using hk) (hnil kv hmem)
  obtain ⟨x, hx⟩ := Option.isSome_iff_exists.1
    (by rw [List.getLast?_isSome]; exact hne :
      ((pairs.filter (fun kv => CanonicalMIMEHeaderKey kv.1 = name)).getLast?).isSome = true)
  exact ⟨x.2, by rw [hx]; rfl⟩

/-- Without a `contenttype` entry the resolved content type is the default. -/
theorem extract_contentType_default (up : Char → Char) (ps : List Param)
    (h : lastValue "contenttype" ps = none) :
    (extract up ps).contentType = "application/json" := by
  induction ps using List.reverseRecOn with
  | nil => rfl
  | append_singleton ps p ih =>
    rw [lastValue_append] at h
    by_cases hn : p.InputName = "contenttype"
    · rw [if_pos hn] at h
      exact absurd h (by simp)
    · rw [if_neg hn] at h
      rw [extract_append, ← ih h]
      unfold step
      split_ifs <;> try rfl
      split <;> rfl

/-! ## Scanning the timeout -/

theorem SkipSpace_eq (l : List Char) :
    ∀ x, SkipSpace l = some x → x = l.dropWhile isSpace := by
  induction l with
  | nil =>
    intro x h
    simp [SkipSpace] at h
    simp [h]
  | cons r rest ih =>
    intro x h
    unfold SkipSpace at h
    split_ifs at h with h1 h2 h3
    · have hr : isSpace r = true := by
        rw [h1.1]
        decide
      rw [List.dropWhile_cons_of_pos hr]
      exact ih x h
    · rw [List.dropWhile_cons_of_pos h3]
      exact ih x h
    · have hx : x = r :: rest := by simpa using h.symm
      rw [List.dropWhile_cons_of_neg (by simpa using h3)]
      exact hx

theorem dropWhile_dropWhile (p : Char → Bool) (l : List Char) :
    (l.dropWhile p).dropWhile p = l.dropWhile p := by
  induction l with
  | nil => rfl
  | cons c cs ih =>
    by_cases h : p c = true
    · rw [List.dropWhile_cons_of_pos h, ih]
    · rw [List.dropWhile_cons_of_neg h, List.dropWhile_cons_of_neg h]

theorem dropWhile_take_append (p : Char → Bool) (l : List Char) :
    ∀ n : Nat, ∃ t, l.dropWhile p = (l.take n).dropWhile p ++ t := by
  induction l with
  | nil =>
    intro n
    exact ⟨[], by simp⟩
  | cons c cs ih =>
    intro n
    cases n with
    | zero => exact ⟨(c :: cs).dropWhile p, by simp⟩
    | succ n =>
      rw [List.take_succ_cons]
      by_cases h : p c = true
      · rw [List.dropWhile_cons_of_pos h, List.dropWhile_cons_of_pos h]
        exact ih n
      · rw [List.dropWhile_cons_of_neg h, List.dropWhile_cons_of_neg h]
        exact ⟨cs.drop n, by simp⟩

/-- A value without a leading integer makes the scan fail. -/
theorem Sscanf_d_none (v : String) (hv : hasLeadingInteger v = false) : Sscanf_d v = none := by
  unfold Sscanf_d
  cases h1 : SkipSpace (v.data.take hugeWid) with
  | none => rfl
  | some x =>
    have hx := SkipSpace_eq _ x h1
    show scanInt x = none
    unfold scanInt
    cases h2 : SkipSpace x with
    | none => rfl
    | some y =>
      have hy := SkipSpace_eq _ y h2
      rw [hx, dropWhile_dropWhile] at hy
      obtain ⟨t, ht⟩ := dropWhile_take_append isSpace v.data hugeWid
      rw [← hy] at ht
      cases y with
      | nil => rfl
      | cons c cs =>
        unfold hasLeadingInteger at hv
        rw [ht] at hv
        simp only [List.cons_append] at hv
        simp only []
        by_cases hs : c = '+' ∨ c = '-'
        · rw [if_pos hs] at hv
          rw [if_pos hs]
          cases cs with
          | nil => simp
          | cons d ds =>
            simp only [List.cons_append] at hv
            rw [List.takeWhile_cons_of_neg (by simp [hv])]
            simp
        · rw [if_neg hs] at hv
          rw [if_neg hs, List.takeWhile_cons_of_neg (by simp [hv])]
          simp

theorem SkipSpace_cons (r : Char) (rest : List Char) :
    SkipSpace (r :: rest) =
      if r = '\r' ∧ rest.head? = some '\n' then SkipSpace rest
      else if r = '\n' then none
      else if isSpace r then SkipSpace rest
      else some (r :: rest) := by
  rw [SkipSpace]

theorem SkipSpace_nonspace (r : List Char)
    (hr : ∀ c, r.head? = some c → isSpace c = false) : SkipSpace r = some r := by
  cases r with
  | nil => rfl
  | cons c cs =>
    have hc := hr c rfl
    have h1 : ¬ (c = '\r' ∧ cs.head? = some '\n') := by
      rintro ⟨h, _⟩
      subst h
      exact absurd hc (by decide)
    have h2 : ¬ c = '\n' := by
      intro h
      subst h
      exact absurd hc (by decide)
    rw [SkipSpace_cons, if_neg h1, if_neg h2, if_neg (by simp [hc])]

theorem SkipSpace_spaces (ws r : List Char)
    (hws : ∀ c ∈ ws, isSpace c = true ∧ c ≠ '\n')
    (hr : ∀ c, r.head? = some c → isSpace c = false) : SkipSpace (ws ++ r) = some r := by
  induction ws with
  | nil => exact SkipSpace_nonspace r hr
  | cons c ws ih =>
    have hc := hws c (List.mem_cons_self _ _)
    have ih2 := ih (fun x hx => hws x (List.mem_cons_of_mem _ hx))
    rw [List.cons_append, SkipSpace_cons]
    by_cases h1 : c = '\r' ∧ (ws ++ r).head? = some '\n'
    · rw [if_pos h1]
      exact ih2
    · rw [if_neg h1, if_neg hc.2, if_pos hc.1]
      exact ih2

theorem SkipSpace_newline (ws rest : List Char) (hws : ∀ c ∈ ws, isSpace c = true) :
    SkipSpace (ws ++ '\n' :: rest) = none := by
  induction ws with
  | nil =>
    rw [List.nil_append, SkipSpace_cons, if_neg (fun h => absurd h.1 (by decide)), if_pos rfl]
  | cons c ws ih =>
    have hc := hws c (List.mem_cons_self _ _)
    have ih2 := ih (fun x hx => hws x (List.mem_cons_of_mem _ hx))
    rw [List.cons_append, SkipSpace_cons]
    by_cases h1 : c = '\r' ∧ (ws ++ '\n' :: rest).head? = some '\n'
    · rw [if_pos h1]
      exact ih2
    · rw [if_neg h1]
      by_cases h2 : c = '\n'
      · rw [if_pos h2]
      · rw [if_neg h2, if_pos hc]
        exact ih2

theorem SkipSpace_all_spaces (l : List Char) (hl : ∀ c ∈ l, isSpace c = true) :
    SkipSpace l = none ∨ SkipSpace l = some [] := by
  induction l with
  | nil => exact Or.inr rfl
  | cons c l ih =>
    have hc := hl c (List.mem_cons_self _ _)
    have ih2 := ih (fun x hx => hl x (List.mem_cons_of_mem _ hx))
    rw [SkipSpace_cons]
    by_cases h1 : c = '\r' ∧ l.head? = some '\n'
    · rw [if_pos h1]
      exact ih2
    · rw [if_neg h1]
      by_cases h2 : c = '\n'
      · rw [if_pos h2]
        exact Or.inl rfl
      · rw [if_neg h2, if_pos hc]
        exact ih2

theorem scanInt_nil : scanInt [] = none := rfl

theorem scanInt_of_skip (r : List Char) (c : Char) (cs : List Char)
    (h : SkipSpace r = some (c :: cs)) :
    scanInt r =
      if (if c = '+' ∨ c = '-' then cs else c :: cs).takeWhile Char.isDigit = [] then none
      else ParseInt (decide (c = '-'))
        ((if c = '+' ∨ c = '-' then cs else c :: cs).takeWhile Char.isDigit) := by
  unfold scanInt
  rw [h]

/-- A value with a newline in its leading white space makes the scan fail. -/
theorem Sscanf_d_newline (ws rest : List Char) (hws : ∀ c ∈ ws, isSpace c = true) :
    Sscanf_d ⟨ws ++ '\n' :: rest⟩ = none := by
  unfold Sscanf_d
  show (match SkipSpace ((ws ++ '\n' :: rest).take hugeWid) with
    | none => none
    | some r => scanInt r) = none
  by_cases hle : hugeWid ≤ ws.length
  · rw [List.take_append_of_le_length hle]
    have hsp : ∀ c ∈ ws.take hugeWid, isSpace c = true :=
      fun c hc => hws c (List.mem_of_mem_take hc)
    rcases SkipSpace_all_spaces _ hsp with h | h
    · rw [h]
    · rw [h]
      rfl
  · obtain ⟨k, hk⟩ : ∃ k, hugeWid = ws.length + (k + 1) := ⟨hugeWid - ws.length - 1, by omega⟩
    rw [hk, List.take_append, List.take_succ_cons, SkipSpace_newline ws _ hws]

theorem takeWhile_digits (ds rest : List Char) (hds : ∀ c ∈ ds, c.isDigit = true)
    (hrest : ∀ c, rest.head? = some c → c.isDigit = false) :
    (ds ++ rest).takeWhile Char.isDigit = ds := by
  rw [List.takeWhile_append_of_pos hds]
  cases rest with
  | nil => simp
  | cons c cs =>
    rw [List.takeWhile_cons_of_neg (by simp [hrest c rfl])]
    simp

theorem isSpace_of_isDigit (c : Char) (h : c.isDigit = true) : isSpace c = false := by
  have h2 : 48 ≤ c.toNat ∧ c.toNat ≤ 57 := by
    simp only [Char.isDigit, Bool.and_eq_true, decide_eq_true_eq] at h
    exact ⟨h.1, h.2⟩
  simp only [isSpace, Bool.or_eq_false_iff, Bool.and_eq_false_iff, decide_eq_false_iff_not,
    beq_eq_false_iff_ne, ne_eq]
  omega

/-- On a value that starts with an integer the scan hands its sign and digits to
`strconv.ParseInt`. -/
theorem Sscanf_d_leading (ws sign ds rest : List Char) (h : LeadingInteger ws sign ds rest) :
    Sscanf_d ⟨ws ++ sign ++ ds ++ rest⟩ = ParseInt (decide (sign = ['-'])) ds := by
  obtain ⟨d, ds2, hd⟩ : ∃ d ds2, ds = d :: ds2 := by
    cases hds : ds with
    | nil => exact absurd hds h.digits.1
    | cons d ds2 => exact ⟨d, ds2, rfl⟩
  have hdig : d.isDigit = true := h.digits.2 d (by rw [hd]; exact List.mem_cons_self _ _)
  obtain ⟨k, hk⟩ : ∃ k, hugeWid = (ws ++ sign ++ ds).length + k :=
    ⟨hugeWid - (ws ++ sign ++ ds).length, by
      have := h.short
      simp only [List.length_append]
      omega⟩
  have hstop : ∀ c, (rest.take k).head? = some c → c.isDigit = false := by
    intro c hc
    cases k with
    | zero => simp at hc
    | succ k =>
      cases rest with
      | nil => simp at hc
      | cons x xs => exact h.stop c (by simpa using hc)
  have htw := takeWhile_digits ds (rest.take k) h.digits.2 hstop
  have hhead : ∀ c, (sign ++ ds ++ rest.take k).head? = some c → isSpace c = false := by
    intro c hc
    rcases h.signs with hs | hs | hs
    · rw [hs, hd] at hc
      simp at hc
      rw [← hc]
      exact isSpace_of_isDigit d hdig
    · rw [hs] at hc
      simp at hc
      rw [← hc]
      decide
    · rw [hs] at hc
      simp at hc
      rw [← hc]
      decide
  unfold Sscanf_d
  show (match SkipSpace ((ws ++ sign ++ ds ++ rest).take hugeWid) with
    | none => none
    | some r => scanInt r) = _
  rw [hk, List.take_append, List.append_assoc ws, List.append_assoc ws,
    SkipSpace_spaces ws _ h.spaces hhead]
  show scanInt (sign ++ ds ++ rest.take k) = _
  rcases h.signs with hs | hs | hs
  · subst hs
    have hp : ¬ (d = '+' ∨ d = '-') := by
      intro hpm
      rcases hpm with e | e <;> (rw [e] at hdig; exact absurd hdig (by decide))
    have hr : [] ++ ds ++ rest.take k = d :: (ds2 ++ rest.take k) := by
      rw [hd]
      rfl
    have hsk := SkipSpace_nonspace _ hhead
    rw [hr] at hsk
    rw [hr, scanInt_of_skip _ d _ hsk, if_neg hp]
    have htw2 : (d :: (ds2 ++ rest.take k)).takeWhile Char.isDigit = ds := by
      rw [← htw, hd]
      rfl
    rw [htw2, if_neg h.digits.1]
    have hneg : decide (d = '-') = decide (([] : List Char) = ['-']) := by
      have : ¬ d = '-' := fun e => hp (Or.inr e)
      simp [this]
    rw [hneg]
  · subst hs
    have hsk := SkipSpace_nonspace _ hhead
    have hr : ['+'] ++ ds ++ rest.take k = '+' :: (ds ++ rest.take k) := rfl
    rw [hr] at hsk
    rw [hr, scanInt_of_skip _ '+' _ hsk, if_pos (Or.inl rfl), htw, if_neg h.digits.1]
    rfl
  · subst hs
    have hsk := SkipSpace_nonspace _ hhead
    have hr : ['-'] ++ ds ++ rest.take k = '-' :: (ds ++ rest.take k) := rfl
    rw [hr] at hsk
    rw [hr, scanInt_of_skip _ '-' _ hsk, if_pos (Or.inr rfl), htw, if_neg h.digits.1]
    rfl

theorem ParseInt_fits (sign ds : List Char) (h : fitsInt64 (signedValue sign ds)) :
    ParseInt (decide (sign = ['-'])) ds = some (signedValue sign ds) := by
  unfold ParseInt
  unfold fitsInt64 signedValue at h
  unfold signedValue
  by_cases hs : sign = ['-']
  · simp only [hs, decide_True, if_true] at h ⊢
    rw [if_pos h]
  · simp only [hs, decide_False, if_false] at h ⊢
    simp only [Bool.false_eq_true, if_false]
    rw [if_pos h]

theorem ParseInt_overflow (sign ds : List Char) (h : ¬ fitsInt64 (signedValue sign ds)) :
    ParseInt (decide (sign = ['-'])) ds = none := by
  unfold ParseInt
  unfold fitsInt64 signedValue at h
  by_cases hs : sign = ['-']
  · simp only [hs, decide_True, if_true] at h ⊢
    rw [if_neg h]
  · simp only [hs, decide_False, if_false] at h ⊢
    simp only [Bool.false_eq_true, if_false]
    rw [if_neg h]

/-- A `timeout` entry without a leading integer leaves every variable as it was. -/
theorem step_timeout_none (up : Char → Char) (c : Config) (v : String)
    (hv : hasLeadingInteger v = false) : step up c ⟨"timeout", v⟩ = c := by
  unfold step
  simp [Sscanf_d_none v hv]

/-- The function `main` depends on the params only through the resolved variables. -/
theorem main_congr {J : Type} (w : World J) (ps qs : List Param)
    (h : extract w.unicodeToUpper ps = extract w.unicodeToUpper qs) :
    main w (.ok ps) = main w (.ok qs) := by
  unfold main
  simp only [h]

theorem timeDuration_eq (n : Int) (h1 : -9223372036 ≤ n) (h2 : n ≤ 9223372036) :
    timeDuration n = n * 1000000000 := by
  unfold timeDuration wrapInt64
  omega

/-! ## Repeated entries -/

theorem foldl_step_erase (up : Char → Char) (name : String) (eff : String → Bool)
    (H : Overwrites up name eff) (p : Param) (hp : p.InputName = name) (ps : List Param) :
    ps.any (fun q => q.InputName = name && eff q.CompValue) = true →
    ∀ c : Config, ps.foldl (step up) (step up c p) = ps.foldl (step up) c := by
  induction ps with
  | nil =>
    intro h
    simp at h
  | cons q qs ih =>
    intro h c
    rw [List.foldl_cons, List.foldl_cons]
    by_cases hq : q.InputName = name
    · by_cases he : eff q.CompValue = true
      · rw [H.over c p q hp hq he]
      · have he2 : eff q.CompValue = false := by simpa using he
        rw [H.skip _ q hq he2, H.skip _ q hq he2]
        have h2 : qs.any (fun q => q.InputName = name && eff q.CompValue) = true := by
          simpa [List.any_cons, hq, he2] using h
        exact ih h2 c
    · rw [H.comm c p q hp hq]
      have h2 : qs.any (fun q => q.InputName = name && eff q.CompValue) = true := by
        simpa [List.any_cons, hq] using h
      exact ih h2 (step up c q)

/-- Dropping the entries named `name` that a later effective one replaces, or that do
nothing, changes none of the resolved variables. -/
theorem foldl_step_keepLastWhere (up : Char → Char) (name : String) (eff : String → Bool)
    (H : Overwrites up name eff) (ps : List Param) :
    ∀ c : Config, (keepLastWhere name eff ps).foldl (step up) c = ps.foldl (step up) c := by
  induction ps with
  | nil =>
    intro c
    rfl
  | cons p ps ih =>
    intro c
    unfold keepLastWhere
    by_cases hp : p.InputName = name
    · rw [if_pos hp]
      by_cases he : eff p.CompValue = true
      · by_cases ha : ps.any (fun q => q.InputName = name && eff q.CompValue) = true
        · rw [if_neg (by simp [he, ha]), ih, List.foldl_cons,
            foldl_step_erase up name eff H p hp ps ha c]
        · rw [if_pos (by simp [he, ha]), List.foldl_cons, List.foldl_cons, ih]
      · have he2 : eff p.CompValue = false := by simpa using he
        rw [if_neg (by simp [he2]), ih, List.foldl_cons, H.skip c p hp he2]
    · rw [if_neg hp, List.foldl_cons, List.foldl_cons, ih]

theorem step_url (up : Char → Char) (c : Config) (v : String) :
    step up c ⟨"url", v⟩ = { c with url := TrimSpace v } := rfl

theorem step_method (up : Char → Char) (c : Config) (v : String) :
    step up c ⟨"method", v⟩ = { c with method := ToUpper up (TrimSpace v) } := rfl

theorem step_headers (up : Char → Char) (c : Config) (v : String) :
    step up c ⟨"headers", v⟩ = { c with headers := TrimSpace v } := rfl

theorem step_body (up : Char → Char) (c : Config) (v : String) :
    step up c ⟨"body", v⟩ = { c with body := TrimSpace v } := rfl

theorem step_timeout (up : Char → Char) (c : Config) (v : String) :
    step up c ⟨"timeout", v⟩ =
      match Sscanf_d v with
      | some n => { c with timeout := n }
      | none => c := rfl

theorem step_contenttype (up : Char → Char) (c : Config) (v : String) :
    step up c ⟨"contenttype", v⟩ =
      if TrimSpace v ≠ "" then { c with contentType := TrimSpace v } else c := rfl

theorem step_other (up : Char → Char) (c : Config) (n v : String)
    (h1 : n ≠ "url") (h2 : n ≠ "method") (h3 : n ≠ "headers") (h4 : n ≠ "body")
    (h5 : n ≠ "timeout") (h6 : n ≠ "contenttype") : step up c ⟨n, v⟩ = c := by
  unfold step
  rw [if_neg h1, if_neg h2, if_neg h3, if_neg h4, if_neg h5, if_neg h6]

/-- An entry is one of the six recognised ones or changes nothing. -/
theorem step_cases (up : Char → Char) (q : Param) :
    (∃ v, q = ⟨"url", v⟩) ∨ (∃ v, q = ⟨"method", v⟩) ∨ (∃ v, q = ⟨"headers", v⟩) ∨
    (∃ v, q = ⟨"body", v⟩) ∨ (∃ v, q = ⟨"timeout", v⟩) ∨ (∃ v, q = ⟨"contenttype", v⟩) ∨
    (∀ c, step up c q = c) := by
  obtain ⟨n, v⟩ := q
  by_cases h1 : n = "url"
  · exact Or.inl ⟨v, by rw [h1]⟩
  by_cases h2 : n = "method"
  · exact Or.inr (Or.inl ⟨v, by rw [h2]⟩)
  by_cases h3 : n = "headers"
  · exact Or.inr (Or.inr (Or.inl ⟨v, by rw [h3]⟩))
  by_cases h4 : n = "body"
  · exact Or.inr (Or.inr (Or.inr (Or.inl ⟨v, by rw [h4]⟩)))
  by_cases h5 : n = "timeout"
  · exact Or.inr (Or.inr (Or.inr (Or.inr (Or.inl ⟨v, by rw [h5]⟩))))
  by_cases h6 : n = "contenttype"
  · exact Or.inr (Or.inr (Or.inr (Or.inr (Or.inr (Or.inl ⟨v, by rw [h6]⟩)))))
  · exact Or.inr (Or.inr (Or.inr (Or.inr (Or.inr (Or.inr
      (fun c => step_other up c n v h1 h2 h3 h4 h5 h6))))))

theorem overwrites_url (up : Char → Char) : Overwrites up "url" (fun _ => true) := by
  refine ⟨?_, ?_, ?_⟩
  · intro c p q hp hq _
    obtain ⟨pn, pv⟩ := p
    obtain ⟨qn, qv⟩ := q
    simp only at hp hq
    subst hp
    subst hq
    rfl
  · intro c p q hp hq
    obtain ⟨pn, pv⟩ := p
    simp only at hp
    subst hp
    rcases step_cases up q with ⟨v, rfl⟩ | ⟨v, rfl⟩ | ⟨v, rfl⟩ | ⟨v, rfl⟩ | ⟨v, rfl⟩ | ⟨v, rfl⟩ | h
    · exact absurd rfl hq
    · rfl
    · rfl
    · rfl
    · rw [step_timeout, step_timeout]
      cases Sscanf_d v <;> rfl
    · rw [step_contenttype, step_contenttype]
      split_ifs <;> rfl
    · rw [h, h]
  · intro c p _ he
    simp at he

theorem overwrites_method (up : Char → Char) : Overwrites up "method" (fun _ => true) := by
  refine ⟨?_, ?_, ?_⟩
  · intro c p q hp hq _
    obtain ⟨pn, pv⟩ := p
    obtain ⟨qn, qv⟩ := q
    simp only at hp hq
    subst hp
    subst hq
    rfl
  · intro c p q hp hq
    obtain ⟨pn, pv⟩ := p
    simp only at hp
    subst hp
    rcases step_cases up q with ⟨v, rfl⟩ | ⟨v, rfl⟩ | ⟨v, rfl⟩ | ⟨v, rfl⟩ | ⟨v, rfl⟩ | ⟨v, rfl⟩ | h
    · rfl
    · exact absurd rfl hq
    · rfl
    · rfl
    · rw [step_timeout, step_timeout]
      cases Sscanf_d v <;> rfl
    · rw [step_contenttype, step_contenttype]
      split_ifs <;> rfl
    · rw [h, h]
  · intro c p _ he
    simp at he

theorem overwrites_headers (up : Char → Char) : Overwrites up "headers" (fun _ => true) := by
  refine ⟨?_, ?_, ?_⟩
  · intro c p q hp hq _
    obtain ⟨pn, pv⟩ := p
    obtain ⟨qn, qv⟩ := q
    simp only at hp hq
    subst hp
    subst hq
    rfl
  · intro c p q hp hq
    obtain ⟨pn, pv⟩ := p
    simp only at hp
    subst hp
    rcases step_cases up q with ⟨v, rfl⟩ | ⟨v, rfl⟩ | ⟨v, rfl⟩ | ⟨v, rfl⟩ | ⟨v, rfl⟩ | ⟨v, rfl⟩ | h
    · rfl
    · rfl
    · exact absurd rfl hq
    · rfl
    · rw [step_timeout, step_timeout]
      cases Sscanf_d v <;> rfl
    · rw [step_contenttype, step_contenttype]
      split_ifs <;> rfl
    · rw [h, h]
  · intro c p _ he
    simp at he

theorem overwrites_body (up : Char → Char) : Overwrites up "body" (fun _ => true) := by
  refine ⟨?_, ?_, ?_⟩
  · intro c p q hp hq _
    obtain ⟨pn, pv⟩ := p
    obtain ⟨qn, qv⟩ := q
    simp only at hp hq
    subst hp
    subst hq
    rfl
  · intro c p q hp hq
    obtain ⟨pn, pv⟩ := p
    simp only at hp
    subst hp
    rcases step_cases up q with ⟨v, rfl⟩ | ⟨v, rfl⟩ | ⟨v, rfl⟩ | ⟨v, rfl⟩ | ⟨v, rfl⟩ | ⟨v, rfl⟩ | h
    · rfl
    · rfl
    · rfl
    · exact absurd rfl hq
    · rw [step_timeout, step_timeout]
      cases Sscanf_d v <;> rfl
    · rw [step_contenttype, step_contenttype]
      split_ifs <;> rfl
    · rw [h, h]
  · intro c p _ he
    simp at he

theorem overwrites_timeout (up : Char → Char) :
    Overwrites up "timeout" (fun v => (Sscanf_d v).isSome) := by
  refine ⟨?_, ?_, ?_⟩
  · intro c p q hp hq he
    obtain ⟨pn, pv⟩ := p
    obtain ⟨qn, qv⟩ := q
    simp only at hp hq he
    subst hp
    subst hq
    obtain ⟨n, hn⟩ := Option.isSome_iff_exists.1 he
    rw [step_timeout, step_timeout, step_timeout, hn]
    cases Sscanf_d pv <;> rfl
  · intro c p q hp hq
    obtain ⟨pn, pv⟩ := p
    simp only at hp
    subst hp
    rcases step_cases up q with ⟨v, rfl⟩ | ⟨v, rfl⟩ | ⟨v, rfl⟩ | ⟨v, rfl⟩ | ⟨v, rfl⟩ | ⟨v, rfl⟩ | h
    · rw [step_timeout, step_timeout]
      cases Sscanf_d pv <;> rfl
    · rw [step_timeout, step_timeout]
      cases Sscanf_d pv <;> rfl
    · rw [step_timeout, step_timeout]
      cases Sscanf_d pv <;> rfl
    · rw [step_timeout, step_timeout]
      cases Sscanf_d pv <;> rfl
    · exact absurd rfl hq
    · rw [step_timeout, step_timeout, step_contenttype, step_contenttype]
      cases Sscanf_d pv <;> split_ifs <;> rfl
    · rw [h, h]
  · intro c p hp he
    obtain ⟨pn, pv⟩ := p
    simp only at hp he
    subst hp
    have hn : Sscanf_d pv = none := by
      cases h : Sscanf_d pv with
      | none => rfl
      | some n => simp [h] at he
    rw [step_timeout, hn]

theorem overwrites_contenttype (up : Char → Char) :
    Overwrites up "contenttype" (fun v => TrimSpace v != "") := by
  refine ⟨?_, ?_, ?_⟩
  · intro c p q hp hq he
    obtain ⟨pn, pv⟩ := p
    obtain ⟨qn, qv⟩ := q
    simp only at hp hq he
    subst hp
    subst hq
    have hne : TrimSpace qv ≠ "" := by simpa using he
    rw [step_contenttype, step_contenttype, step_contenttype, if_pos hne, if_pos hne]
    split_ifs <;> rfl
  · intro c p q hp hq
    obtain ⟨pn, pv⟩ := p
    simp only at hp
    subst hp
    rcases step_cases up q with ⟨v, rfl⟩ | ⟨v, rfl⟩ | ⟨v, rfl⟩ | ⟨v, rfl⟩ | ⟨v, rfl⟩ | ⟨v, rfl⟩ | h
    · rw [step_contenttype, step_contenttype]
      split_ifs <;> rfl
    · rw [step_contenttype, step_contenttype]
      split_ifs <;> rfl
    · rw [step_contenttype, step_contenttype]
      split_ifs <;> rfl
    · rw [step_contenttype, step_contenttype]
      split_ifs <;> rfl
    · rw [step_contenttype, step_contenttype, step_timeout, step_timeout]
      cases Sscanf_d v <;> split_ifs <;> rfl
    · exact absurd rfl hq
    · rw [h, h]
  · intro c p hp he
    obtain ⟨pn, pv⟩ := p
    simp only at hp he
    subst hp
    have hn : TrimSpace pv = "" := by simpa using he
    rw [step_contenttype, if_neg (by simp [hn])]

/-! ## Text bodies on the wire -/

theorem char_valid (c : Char) :
    c.toNat < 0xD800 ∨ (0xDFFF < c.toNat ∧ c.toNat < 0x110000) := c.valid

theorem appendStringLoop_zero (p0 : Nat) (rest : List Nat) :
    appendStringLoop 0 (p0 :: rest) =
      if p0 < 0x80 then appendRune (Char.ofNat p0) ++ appendStringLoop 0 rest
      else if (DecodeRune (p0 :: rest)).1 = RuneError ∧ (DecodeRune (p0 :: rest)).2 = 1 then
        ['\\', 'u', 'f', 'f', 'f', 'd'] ++ appendStringLoop 0 rest
      else
        appendRune (Char.ofNat (DecodeRune (p0 :: rest)).1) ++
          appendStringLoop ((DecodeRune (p0 :: rest)).2 - 1) rest := by
  rw [appendStringLoop]

theorem appendStringLoop_succ (k x : Nat) (rest : List Nat) :
    appendStringLoop (k + 1) (x :: rest) = appendStringLoop k rest := by
  rw [appendStringLoop]

theorem DecodeRune_two (p0 p1 : Nat) (rest : List Nat) (h0 : 0xC2 ≤ p0) (h0b : p0 ≤ 0xDF)
    (h1 : 0x80 ≤ p1) (h1b : p1 ≤ 0xBF) :
    DecodeRune (p0 :: p1 :: rest) = (p0 % 32 * 64 + p1 % 64, 2) := by
  have e1 : ¬ p0 < 0x80 := by omega
  have e2 : ¬ (p0 < 0xC2 ∨ 0xF4 < p0) := by omega
  have e3 : p0 < 0xE0 := by omega
  have e4 : ¬ p0 = 0xE0 := by omega
  have e5 : ¬ p0 = 0xF0 := by omega
  have e6 : ¬ p0 = 0xED := by omega
  have e7 : ¬ p0 = 0xF4 := by omega
  have e8 : ¬ (p1 < 0x80 ∨ 0xBF < p1) := by omega
  have e9 : ¬ rest.length + 1 + 1 < 2 := by omega
  unfold DecodeRune
  simp only [List.length_cons, List.getD_cons_succ, List.getD_cons_zero, e1, e2, e3, e4, e5,
    e6, e7, e8, e9, if_true, if_false, le_refl]

theorem DecodeRune_three (p0 p1 p2 : Nat) (rest : List Nat) (h0 : 0xE0 ≤ p0) (h0b : p0 ≤ 0xEF)
    (h1 : 0x80 ≤ p1) (h1b : p1 ≤ 0xBF) (hlo : p0 = 0xE0 → 0xA0 ≤ p1)
    (hhi : p0 = 0xED → p1 ≤ 0x9F) (h2 : 0x80 ≤ p2) (h2b : p2 ≤ 0xBF) :
    DecodeRune (p0 :: p1 :: p2 :: rest) = (p0 % 16 * 4096 + p1 % 64 * 64 + p2 % 64, 3) := by
  have e1 : ¬ p0 < 0x80 := by omega
  have e2 : ¬ (p0 < 0xC2 ∨ 0xF4 < p0) := by omega
  have e3 : ¬ p0 < 0xE0 := by omega
  have e3b : p0 < 0xF0 := by omega
  have e5 : ¬ p0 = 0xF0 := by omega
  have e7 : ¬ p0 = 0xF4 := by omega
  have e8 : ¬ (p2 < 0x80 ∨ 0xBF < p2) := by omega
  have e9 : ¬ rest.length + 1 + 1 + 1 < 3 := by omega
  have e10 : ¬ (3 ≤ 2) := by omega
  have ea : ¬ (p1 < 0xA0 ∨ 0xBF < p1) ∨ ¬ p0 = 0xE0 := by omega
  unfold DecodeRune
  by_cases c1 : p0 = 0xE0
  · have c2 : ¬ p0 = 0xED := by omega
    have c3 : ¬ (p1 < 0xA0 ∨ 0xBF < p1) := by omega
    simp only [List.length_cons, List.getD_cons_succ, List.getD_cons_zero, e1, e2, e3, e3b, e5,
      e7, e8, e9, e10, c2, if_true, if_false, le_refl]
    rw [if_pos c1]
    simp only [c3, if_false]
  · by_cases c2 : p0 = 0xED
    · have c3 : ¬ (p1 < 0x80 ∨ 0x9F < p1) := by omega
      simp only [List.length_cons, List.getD_cons_succ, List.getD_cons_zero, e1, e2, e3, e3b,
        e5, e7, e8, e9, e10, c1, if_true, if_false, le_refl]
      rw [if_pos c2]
      simp only [c3, if_false]
    · have c3 : ¬ (p1 < 0x80 ∨ 0xBF < p1) := by omega
      simp only [List.length_cons, List.getD_cons_succ, List.getD_cons_zero, e1, e2, e3, e3b,
        e5, e7, e8, e9, e10, c1, c2, c3, if_true, if_false, le_refl]

theorem DecodeRune_four (p0 p1 p2 p3 : Nat) (rest : List Nat) (h0 : 0xF0 ≤ p0)
    (h0b : p0 ≤ 0xF4) (h1 : 0x80 ≤ p1) (h1b : p1 ≤ 0xBF) (hlo : p0 = 0xF0 → 0x90 ≤ p1)
    (hhi : p0 = 0xF4 → p1 ≤ 0x8F) (h2 : 0x80 ≤ p2) (h2b : p2 ≤ 0xBF) (h3 : 0x80 ≤ p3)
    (h3b : p3 ≤ 0xBF) :
    DecodeRune (p0 :: p1 :: p2 :: p3 :: rest) =
      (p0 % 8 * 262144 + p1 % 64 * 4096 + p2 % 64 * 64 + p3 % 64, 4) := by
  have e1 : ¬ p0 < 0x80 := by omega
  have e2 : ¬ (p0 < 0xC2 ∨ 0xF4 < p0) := by omega
  have e3 : ¬ p0 < 0xE0 := by omega
  have e3b : ¬ p0 < 0xF0 := by omega
  have e4 : ¬ p0 = 0xE0 := by omega
  have e6 : ¬ p0 = 0xED := by omega
  have e8 : ¬ (p2 < 0x80 ∨ 0xBF < p2) := by omega
  have e8b : ¬ (p3 < 0x80 ∨ 0xBF < p3) := by omega
  have e9 : ¬ rest.length + 1 + 1 + 1 + 1 < 4 := by omega
  have e10 : ¬ (4 ≤ 2) := by omega
  have e11 : ¬ (4 ≤ 3) := by omega
  unfold DecodeRune
  by_cases c1 : p0 = 0xF0
  · have c2 : ¬ p0 = 0xF4 := by omega
    have c3 : ¬ (p1 < 0x90 ∨ 0xBF < p1) := by omega
    simp only [List.length_cons, List.getD_cons_succ, List.getD_cons_zero, e1, e2, e3, e3b, e4,
      e6, e8, e8b, e9, e10, e11, c2, if_true, if_false, le_refl]
    rw [if_pos c1]
    simp only [c3, if_false]
  · by_cases c2 : p0 = 0xF4
    · have c3 : ¬ (p1 < 0x80 ∨ 0x8F < p1) := by omega
      simp only [List.length_cons, List.getD_cons_succ, List.getD_cons_zero, e1, e2, e3, e3b,
        e4, e6, e8, e8b, e9, e10, e11, c1, if_true, if_false, le_refl]
      rw [if_pos c2]
      simp only [c3, if_false]
    · have c3 : ¬ (p1 < 0x80 ∨ 0xBF < p1) := by omega
      simp only [List.length_cons, List.getD_cons_succ, List.getD_cons_zero, e1, e2, e3, e3b,
        e4, e6, e8, e8b, e9, e10, e11, c1, c2, c3, if_true, if_false, le_refl]
/-- The loop writes the UTF-8 encoding of a character as the encoder writes that
character, and goes on with the bytes after it. -/
theorem appendStringLoop_utf8Bytes (c : Char) (rest : List Nat) :
    appendStringLoop 0 (utf8Bytes c ++ rest) = appendRune c ++ appendStringLoop 0 rest := by
  have hv := char_valid c
  unfold utf8Bytes
  by_cases h1 : c.toNat < 0x80
  · rw [if_pos h1, List.singleton_append, appendStringLoop_zero, if_pos h1, Char.ofNat_toNat]
  · rw [if_neg h1]
    by_cases h2 : c.toNat < 0x800
    · rw [if_pos h2]
      have hd := DecodeRune_two (0xC0 + c.toNat / 64) (0x80 + c.toNat % 64) rest
        (by omega) (by omega) (by omega) (by omega)
      have hval : (0xC0 + c.toNat / 64) % 32 * 64 + (0x80 + c.toNat % 64) % 64 = c.toNat := by
        omega
      rw [hval] at hd
      simp only [List.cons_append, List.nil_append]
      rw [appendStringLoop_zero, if_neg (by omega), hd, if_neg (by simp), Char.ofNat_toNat]
      show _ ++ appendStringLoop (0 + 1) _ = _
      rw [appendStringLoop_succ]
    · rw [if_neg h2]
      by_cases h3 : c.toNat < 0x10000
      · rw [if_pos h3]
        have hd := DecodeRune_three (0xE0 + c.toNat / 4096) (0x80 + c.toNat / 64 % 64)
          (0x80 + c.toNat % 64) rest (by omega) (by omega) (by omega) (by omega) (by omega)
          (by omega) (by omega) (by omega)
        have hval : (0xE0 + c.toNat / 4096) % 16 * 4096 + (0x80 + c.toNat / 64 % 64) % 64 * 64 +
            (0x80 + c.toNat % 64) % 64 = c.toNat := by
          omega
        rw [hval] at hd
        simp only [List.cons_append, List.nil_append]
        rw [appendStringLoop_zero, if_neg (by omega), hd, if_neg (by simp), Char.ofNat_toNat]
        show _ ++ appendStringLoop (1 + 1) _ = _
        rw [appendStringLoop_succ, appendStringLoop_succ]
      · rw [if_neg h3]
        have hd := DecodeRune_four (0xF0 + c.toNat / 262144) (0x80 + c.toNat / 4096 % 64)
          (0x80 + c.toNat / 64 % 64) (0x80 + c.toNat % 64) rest (by omega) (by omega)
          (by omega) (by omega) (by omega) (by omega) (by omega) (by omega) (by omega)
          (by omega)
        have hval : (0xF0 + c.toNat / 262144) % 8 * 262144 +
            (0x80 + c.toNat / 4096 % 64) % 64 * 4096 + (0x80 + c.toNat / 64 % 64) % 64 * 64 +
            (0x80 + c.toNat % 64) % 64 = c.toNat := by
          omega
        rw [hval] at hd
        simp only [List.cons_append, List.nil_append]
        rw [appendStringLoop_zero, if_neg (by omega), hd, if_neg (by simp), Char.ofNat_toNat]
        show _ ++ appendStringLoop (2 + 1) _ = _
        rw [appendStringLoop_succ, appendStringLoop_succ, appendStringLoop_succ]

theorem appendStringLoop_utf8Encode (s : List Char) (rest : List Nat) :
    appendStringLoop 0 (utf8Encode s ++ rest) =
      (s.map appendRune).flatten ++ appendStringLoop 0 rest := by
  induction s with
  | nil => rfl
  | cons c s ih =>
    have h : utf8Encode (c :: s) ++ rest = utf8Bytes c ++ (utf8Encode s ++ rest) := by
      simp [utf8Encode]
    rw [h, appendStringLoop_utf8Bytes, ih]
    simp

theorem appendStringLoop_nil (k : Nat) : appendStringLoop k [] = [] := by
  cases k <;> rfl

/-- Body bytes that are the UTF-8 encoding of a text are written as the JSON string of
that text. -/
theorem encodeBytes_utf8 (b : Bytes) (s : List Char) (h : b.map Fin.val = utf8Encode s) :
    encodeBytes b = encodeString ⟨s⟩ := by
  unfold encodeBytes encodeString
  have h2 := appendStringLoop_utf8Encode s []
  rw [List.append_nil, appendStringLoop_nil, List.append_nil] at h2
  rw [h, h2]

/-- A byte at which no valid UTF-8 encoding starts is written as the escape `\ufffd`, after which
the loop goes on with the next byte. -/
theorem appendStringLoop_invalid (s : List Char) (p0 : Nat) (rest : List Nat)
    (h0 : 0x80 ≤ p0) (hd : DecodeRune (p0 :: rest) = (RuneError, 1)) :
    appendStringLoop 0 (utf8Encode s ++ p0 :: rest) =
      (s.map appendRune).flatten ++ (['\\', 'u', 'f', 'f', 'f', 'd'] ++
        appendStringLoop 0 rest) := by
  rw [appendStringLoop_utf8Encode, appendStringLoop_zero, if_neg (by omega), hd,
    if_pos ⟨rfl, rfl⟩]

/-! ## Properties -/

/-- C1: for a decoded input, `main` writes the error "url parameter is required" and
neither builds nor issues a request exactly when the resolved url is empty, which is
exactly when there is no `url` entry or the last one is empty after trimming; the
outcome is the same for every input with the same `url` entries. -/
theorem url_required_iff {J : Type} (w : World J) (ps : List Param) :
    (main w (.ok ps) = ⟨⟨none, "url parameter is required"⟩, none, none⟩ ↔
        (extract w.unicodeToUpper ps).url = "") ∧
    ((main w (.ok ps)).out.Error = "url parameter is required" ↔
        (extract w.unicodeToUpper ps).url = "") ∧
    ((main w (.ok ps)).newRequest = none ↔ (extract w.unicodeToUpper ps).url = "") ∧
    ((extract w.unicodeToUpper ps).url = "" ↔
        (lastValue "url" ps = none ∨ ∃ v, lastValue "url" ps = some v ∧ TrimSpace v = "")) ∧
    (∀ qs : List Param,
        qs.filter (fun p => p.InputName = "url") = ps.filter (fun p => p.InputName = "url") →
        ((main w (.ok qs)).out.Error = "url parameter is required" ↔
          (main w (.ok ps)).out.Error = "url parameter is required")) := by
  have key : ∀ rs : List Param, (main w (.ok rs)).out.Error = "url parameter is required" ↔
      (extract w.unicodeToUpper rs).url = "" := by
    intro rs
    constructor
    · intro h
      by_contra hne
      exact (main_url_nonempty w rs hne).2 h
    · intro h
      rw [main_url_empty w rs h]
  refine ⟨⟨?_, main_url_empty w ps⟩, key ps, ⟨?_, ?_⟩, ?_, ?_⟩
  · intro h
    exact (key ps).1 (by rw [h])
  · intro h
    by_contra hne
    exact (main_url_nonempty w ps hne).1 h
  · intro h
    rw [main_url_empty w ps h]
  · rw [extract_url]
    cases lastValue "url" ps with
    | none => simp
    | some v => simp
  · intro qs hq
    rw [key qs, key ps, extract_url, extract_url, lastValue_eq_of_filter "url" ps qs hq]

/-- C2, as stated, fails for a body that is not valid UTF-8: the bytes `ff 61` are not
JSON and are written as the string `\ufffda`, the same document that the different
bytes `fe 61` give, so the body written is not the body bytes unchanged. -/
theorem text_body_counterexample :
    stdout (encodeResult (fun n : Nat => encodeInt n) (fun _ => "\x7b\x7d"))
        (main (bodyWorld [0xff, 0x61] none) (.ok [⟨"url", "http://a"⟩])) =
      "\x7b\"result\":\x7b\"body\":\"\\ufffda\",\"headers\":\x7b\x7d,\"status\":\"200 OK\",\"status_code\":200\x7d,\"error\":\"\"\x7d\n" ∧
    stdout (encodeResult (fun n : Nat => encodeInt n) (fun _ => "\x7b\x7d"))
        (main (bodyWorld [0xfe, 0x61] none) (.ok [⟨"url", "http://a"⟩])) =
      stdout (encodeResult (fun n : Nat => encodeInt n) (fun _ => "\x7b\x7d"))
        (main (bodyWorld [0xff, 0x61] none) (.ok [⟨"url", "http://a"⟩])) ∧
    ([0xff, 0x61] : Bytes) ≠ [0xfe, 0x61] := by
  refine ⟨by decide, by decide, by decide⟩

/-- C2, amended: whatever response the HTTP call returns, once its body has been read
the `Output` value is a success result carrying the response's status code, status text
and headers, with `body` the parsed JSON value when the body bytes parse as JSON and
the Go string of the body bytes otherwise, and with an empty `error` field; the document
written holds these under the keys `body`, `headers`, `status`, `status_code` and an
empty `error` string. A text body whose bytes are the UTF-8 encoding of a text is
written as the JSON string of exactly that text; a byte at which no valid UTF-8
encoding starts is written as the escape `\ufffd`, and the bytes after it are treated
the same way. -/
theorem response_document {J : Type} (w : World J) (encJSON : J → String)
    (encHeader : Header → String) (ps : List Param) (t : Int) (req : Request)
    (resp : Response) (respBody : Bytes)
    (hsent : (main w (.ok ps)).sent = some (t, req))
    (hdo : w.Do t req = .ok resp) (hbody : resp.Body = .ok respBody) :
    (main w (.ok ps)).out.Error = "" ∧
    (∀ v, w.Unmarshal respBody = some v →
      (main w (.ok ps)).out.Result =
        some ⟨resp.StatusCode, resp.Status, resp.Header, .json v⟩ ∧
      stdout (encodeResult encJSON encHeader) (main w (.ok ps)) =
        "\x7b\"result\":" ++
          ("\x7b\"body\":" ++ encJSON v ++ ",\"headers\":" ++ encHeader resp.Header ++
            ",\"status\":" ++ encodeString resp.Status ++
            ",\"status_code\":" ++ encodeInt resp.StatusCode ++ "\x7d") ++
          ",\"error\":" ++ "\"\"" ++ "\x7d\n") ∧
    (w.Unmarshal respBody = none →
      (main w (.ok ps)).out.Result =
        some ⟨resp.StatusCode, resp.Status, resp.Header, .text respBody⟩ ∧
      stdout (encodeResult encJSON encHeader) (main w (.ok ps)) =
        "\x7b\"result\":" ++
          ("\x7b\"body\":" ++ encodeBytes respBody ++ ",\"headers\":" ++ encHeader resp.Header ++
            ",\"status\":" ++ encodeString resp.Status ++
            ",\"status_code\":" ++ encodeInt resp.StatusCode ++ "\x7d") ++
          ",\"error\":" ++ "\"\"" ++ "\x7d\n") ∧
    (∀ s : List Char, respBody.map Fin.val = utf8Encode s →
      encodeBytes respBody = encodeString ⟨s⟩) ∧
    (∀ (s : List Char) (p0 : Nat) (rest : List Nat), 0x80 ≤ p0 →
      DecodeRune (p0 :: rest) = (RuneError, 1) →
      appendStringLoop 0 (utf8Encode s ++ p0 :: rest) =
        (s.map appendRune).flatten ++
          (['\\', 'u', 'f', 'f', 'f', 'd'] ++ appendStringLoop 0 rest)) := by
  obtain ⟨hu, hnr, ht, hreq⟩ := main_sent w ps t req hsent
  subst ht
  subst hreq
  have hout := main_out_of_response w ps resp respBody hu hnr hdo hbody
  have hq : encodeString "" = "\"\"" := by decide
  refine ⟨by rw [hout], ?_, ?_, encodeBytes_utf8 respBody, appendStringLoop_invalid⟩
  · intro v hv
    rw [hv] at hout
    refine ⟨by rw [hout], ?_⟩
    unfold stdout encodeOutput encodeResult
    rw [hout]
    simp only [hq]
  · intro hv
    rw [hv] at hout
    refine ⟨by rw [hout], ?_⟩
    unfold stdout encodeOutput encodeResult
    rw [hout]
    simp only [hq]

/-- Instances of `response_document`: a world that answers `200 OK` with the two bytes
`hi`, which are not JSON, and one that answers with the byte `1`, which parses as the
number 1. -/
theorem response_document_witness :
    ((main (bodyWorld [104, 105] none) (.ok [⟨"url", "http://a"⟩])).out.Result =
        some ⟨200, "200 OK", Header.empty, .text [104, 105]⟩ ∧
      stdout (encodeResult (fun n : Nat => encodeInt n) (fun _ => "\x7b\x7d"))
          (main (bodyWorld [104, 105] none) (.ok [⟨"url", "http://a"⟩])) =
        "\x7b\"result\":\x7b\"body\":\"hi\",\"headers\":\x7b\x7d,\"status\":\"200 OK\",\"status_code\":200\x7d,\"error\":\"\"\x7d\n") ∧
    ((main (bodyWorld [49] (some 1)) (.ok [⟨"url", "http://a"⟩])).out.Result =
        some ⟨200, "200 OK", Header.empty, .json 1⟩ ∧
      stdout (encodeResult (fun n : Nat => encodeInt n) (fun _ => "\x7b\x7d"))
          (main (bodyWorld [49] (some 1)) (.ok [⟨"url", "http://a"⟩])) =
        "\x7b\"result\":\x7b\"body\":1,\"headers\":\x7b\x7d,\"status\":\"200 OK\",\"status_code\":200\x7d,\"error\":\"\"\x7d\n") :=
  ⟨(response_document (bodyWorld [104, 105] none) (fun n : Nat => encodeInt n)
      (fun _ => "\x7b\x7d") [⟨"url", "http://a"⟩] 30000000000
      ⟨"GET", "http://a", none, headerOf (extract Char.toUpper [⟨"url", "http://a"⟩])⟩
      ⟨200, "200 OK", Header.empty, .ok [104, 105]⟩ [104, 105] rfl rfl rfl).2.2.1 rfl,
    (response_document (bodyWorld [49] (some 1)) (fun n : Nat => encodeInt n)
      (fun _ => "\x7b\x7d") [⟨"url", "http://a"⟩] 30000000000
      ⟨"GET", "http://a", none, headerOf (extract Char.toUpper [⟨"url", "http://a"⟩])⟩
      ⟨200, "200 OK", Header.empty, .ok [49]⟩ [49] rfl rfl rfl).2.1 1 rfl⟩

/-- C3: with a non-empty resolved url, when the method entry, trimmed and upper-cased,
is GET or DELETE, or there is no method entry or a blank one (the verb is then GET),
`http.NewRequest` is called with that verb and the nil body, also when a `body` entry
with any value is supplied last. -/
theorem get_delete_no_body {J : Type} (w : World J) (ps : List Param)
    (hu : (extract w.unicodeToUpper ps).url ≠ "")
    (hm : specVerb w.unicodeToUpper ps = "GET" ∨ specVerb w.unicodeToUpper ps = "DELETE") :
    (main w (.ok ps)).newRequest =
      some (specVerb w.unicodeToUpper ps, (extract w.unicodeToUpper ps).url, none) ∧
    (∀ b : String, (main w (.ok (ps ++ [⟨"body", b⟩]))).newRequest =
      some (specVerb w.unicodeToUpper ps, (extract w.unicodeToUpper ps).url, none)) ∧
    ((lastValue "method" ps = none ∨ ∃ v, lastValue "method" ps = some v ∧ TrimSpace v = "") →
      specVerb w.unicodeToUpper ps = "GET") := by
  have hb : ∀ c : Config, verbOf c = specVerb w.unicodeToUpper ps → bodyOf c = none := by
    intro c hc
    unfold bodyOf
    rw [hc, if_pos hm]
  refine ⟨?_, ?_, ?_⟩
  · rw [main_newRequest w ps hu, verbOf_extract, hb _ (verbOf_extract _ _)]
  · intro b
    have hf := step_body_frame w.unicodeToUpper (extract w.unicodeToUpper ps) b
    have hu2 : (extract w.unicodeToUpper (ps ++ [⟨"body", b⟩])).url ≠ "" := by
      rw [extract_append, hf.1]
      exact hu
    rw [main_newRequest w _ hu2, extract_append, hf.1, hf.2, verbOf_extract,
      hb _ (hf.2.trans (verbOf_extract _ _))]
  · intro h
    unfold specVerb
    rcases h with h | ⟨v, h, hv⟩
    · rw [h]
    · rw [h]
      simp [hv]

/-- An instance of `get_delete_no_body`: a lower-case `delete` with a body supplied. -/
theorem get_delete_no_body_witness :
    (main exampleWorld (.ok [⟨"url", "http://a"⟩, ⟨"body", "x"⟩, ⟨"method", " delete "⟩])).newRequest =
      some ("DELETE", "http://a", none) :=
  (get_delete_no_body exampleWorld
    [⟨"url", "http://a"⟩, ⟨"body", "x"⟩, ⟨"method", " delete "⟩]
    (by decide) (Or.inr (by decide))).1

/-- C6, as stated, fails: the body ` x ` supplied with surrounding blanks reaches
`http.NewRequest` as `x`. -/
theorem body_raw_counterexample :
    (main exampleWorld
      (.ok [⟨"url", "http://a"⟩, ⟨"method", "POST"⟩, ⟨"body", " x "⟩])).newRequest =
        some ("POST", "http://a", some "x") ∧
    (main exampleWorld
      (.ok [⟨"url", "http://a"⟩, ⟨"method", "POST"⟩, ⟨"body", " x "⟩])).newRequest ≠
        some ("POST", "http://a", some " x ") := by
  constructor <;> decide

/-- C6, amended: with a non-empty resolved url and a verb that is neither GET nor
DELETE, the body given to `http.NewRequest` is the last `body` entry with its leading
and trailing white space trimmed, and the empty string when there is no `body` entry. -/
theorem body_trimmed {J : Type} (w : World J) (ps : List Param)
    (hu : (extract w.unicodeToUpper ps).url ≠ "")
    (hg : specVerb w.unicodeToUpper ps ≠ "GET")
    (hd : specVerb w.unicodeToUpper ps ≠ "DELETE") :
    (main w (.ok ps)).newRequest =
      some (specVerb w.unicodeToUpper ps, (extract w.unicodeToUpper ps).url,
        some (match lastValue "body" ps with
          | none => ""
          | some v => TrimSpace v)) := by
  rw [main_newRequest w ps hu, verbOf_extract]
  unfold bodyOf
  rw [verbOf_extract, if_neg (by
    intro h
    rcases h with h | h
    · exact hg h
    · exact hd h), extract_body]

/-- An instance of `body_trimmed`: a PUT whose body has surrounding white space. -/
theorem body_trimmed_witness :
    (main exampleWorld
      (.ok [⟨"url", "http://a"⟩, ⟨"method", "put"⟩, ⟨"body", "\t\x7b\x7d\n"⟩])).newRequest =
        some ("PUT", "http://a", some "\x7b\x7d") :=
  body_trimmed exampleWorld [⟨"url", "http://a"⟩, ⟨"method", "put"⟩, ⟨"body", "\t\x7b\x7d\n"⟩]
    (by decide) (by decide) (by decide)

/-- C9, as stated, fails: for empty params the document written is not the one-field
object; it carries a `result` key as well. -/
theorem one_field_error_counterexample :
    stdout (fun _ => "") (main exampleWorld (.ok [])) =
      "\x7b\"result\":null,\"error\":\"url parameter is required\"\x7d\n" ∧
    stdout (fun _ => "") (main exampleWorld (.ok [])) ≠
      "\x7b\"error\":\"url parameter is required\"\x7d\n" ∧
    stdout (fun _ => "") (main exampleWorld (.ok [])) ≠
      "\x7b\"error\":\"url parameter is required\"\x7d" := by
  refine ⟨?_, ?_, ?_⟩ <;> decide

/-- C9, amended: for params that are empty or hold no `url` entry, standard output is
exactly the object with the key `result` bound to `null` and the key `error` bound to
"url parameter is required", followed by a newline. -/
theorem missing_url_output {J : Type} (w : World J) (enc : ResultMap J → String)
    (ps : List Param) (h : ∀ p ∈ ps, p.InputName ≠ "url") :
    stdout enc (main w (.ok ps)) =
      "\x7b\"result\":null,\"error\":\"url parameter is required\"\x7d\n" := by
  have hl : lastValue "url" ps = none := by
    unfold lastValue
    have : ps.filter (fun p => p.InputName = "url") = [] := by
      rw [List.filter_eq_nil_iff]
      intro p hp
      simpa using h p hp
    rw [this]
    rfl
  have hu : (extract w.unicodeToUpper ps).url = "" := by
    rw [extract_url, hl]
  rw [main_url_empty w ps hu]
  unfold stdout encodeOutput
  simp only []
  decide

/-- An instance of `missing_url_output`: params with a method and a body but no url. -/
theorem missing_url_output_witness :
    stdout (fun _ => "") (main exampleWorld (.ok [⟨"method", "POST"⟩, ⟨"body", "x"⟩])) =
      "\x7b\"result\":null,\"error\":\"url parameter is required\"\x7d\n" :=
  missing_url_output exampleWorld (fun _ => "") [⟨"method", "POST"⟩, ⟨"body", "x"⟩]
    (by decide)

/-- C5: for every `headers` string the header loop sets exactly the pairs obtained by
splitting the string on `,`, splitting each segment on its first `:` only and trimming
key and value, in order, later settings replacing earlier ones of the same name, and
nothing for a segment without `:`. On `X-Foo: bar, X-Bad-Header, X-Baz : qux` that is
`X-Foo` set to `bar`, `X-Baz` set to `qux`, and nothing for the middle segment; a value
may itself hold a `:`. -/
theorem custom_headers_spec :
    (∀ (h : Header) (headers : String),
      setCustomHeaders h headers = setAll h (specHeaderPairs headers)) ∧
    (∀ (h : Header) (seg : String), ':' ∉ seg.data → setPair h seg = h) ∧
    (∀ (h : Header) (k v v2 : String), (h.Set k v).Set k v2 = h.Set k v2) ∧
    specHeaderPairs "X-Foo: bar, X-Bad-Header, X-Baz : qux" =
      [("X-Foo", "bar"), ("X-Baz", "qux")] ∧
    setCustomHeaders Header.empty "X-Foo: bar, X-Bad-Header, X-Baz : qux" "X-Foo" =
      some ["bar"] ∧
    setCustomHeaders Header.empty "X-Foo: bar, X-Bad-Header, X-Baz : qux" "X-Baz" =
      some ["qux"] ∧
    setCustomHeaders Header.empty "X-Foo: bar, X-Bad-Header, X-Baz : qux" "X-Bad-Header" =
      none ∧
    specHeaderPairs "Referer: http://a:8080/x" = [("Referer", "http://a:8080/x")] := by
  refine ⟨setCustomHeaders_eq, ?_, ?_, by decide, by rfl, by rfl, by rfl, by decide⟩
  · intro h seg hseg
    rw [setPair_eq]
    unfold specPair
    rw [if_neg hseg]
  · intro h k v v2
    funext name
    unfold Header.Set
    by_cases hk : name = CanonicalMIMEHeaderKey k
    · rw [if_pos hk, if_pos hk]
    · rw [if_neg hk, if_neg hk, if_neg hk]

/-- C4: when the verb is POST, PUT or PATCH, the request handed to `client.Do` carries
a `Content-Type` header equal to the resolved content type (`application/json` when no
`contenttype` entry is given) if no segment of the `headers` string with a `:` names
`Content-Type`, and equal to the trimmed value of the last such segment if one does. -/
theorem content_type_header {J : Type} (w : World J) (ps : List Param) (t : Int)
    (req : Request)
    (hsent : (main w (.ok ps)).sent = some (t, req))
    (hm : specVerb w.unicodeToUpper ps = "POST" ∨ specVerb w.unicodeToUpper ps = "PUT" ∨
      specVerb w.unicodeToUpper ps = "PATCH") :
    req.Header "Content-Type" =
      some [match lastNamed "Content-Type"
          (specHeaderPairs (extract w.unicodeToUpper ps).headers) with
        | none => (extract w.unicodeToUpper ps).contentType
        | some v => v] ∧
    (lastValue "contenttype" ps = none →
      (extract w.unicodeToUpper ps).contentType = "application/json") := by
  obtain ⟨_, _, _, hreq⟩ := main_sent w ps t req hsent
  subst hreq
  refine ⟨?_, extract_contentType_default _ ps⟩
  show headerOf (extract w.unicodeToUpper ps) "Content-Type" = _
  unfold headerOf
  rw [verbOf_extract, if_pos hm, setCustomHeaders_eq, setAll_lookup]
  cases lastNamed "Content-Type" (specHeaderPairs (extract w.unicodeToUpper ps).headers) with
  | none => simp [Header.Set, Header.empty]; decide
  | some v => rfl

/-- An instance of `content_type_header`: a POST with a content type and a `headers`
string whose second segment names the header in lower case. -/
theorem content_type_header_witness :
    (headerOf (extract Char.toUpper [⟨"url", "http://a"⟩, ⟨"method", "post"⟩,
        ⟨"contenttype", "text/plain"⟩, ⟨"headers", "X-A: 1, content-type: text/xml"⟩]))
      "Content-Type" = some ["text/xml"] :=
  (content_type_header exampleWorld
    [⟨"url", "http://a"⟩, ⟨"method", "post"⟩, ⟨"contenttype", "text/plain"⟩,
      ⟨"headers", "X-A: 1, content-type: text/xml"⟩]
    30000000000
    ⟨"POST", "http://a", some "",
      headerOf (extract Char.toUpper [⟨"url", "http://a"⟩, ⟨"method", "post"⟩,
        ⟨"contenttype", "text/plain"⟩, ⟨"headers", "X-A: 1, content-type: text/xml"⟩])⟩
    rfl (Or.inl (by decide))).1

/-- C7, as stated, fails: the segment ` : `, with empty key and empty value, leaves an
entry for the empty header name on the request, which the same string without that
segment does not. -/
theorem blank_pair_counterexample :
    specPair " : " = some ("", "") ∧
    setCustomHeaders Header.empty "X-A: 1, : ,X-B: 2" "" = some [""] ∧
    setCustomHeaders Header.empty "X-A: 1,X-B: 2" "" = none := by
  refine ⟨by decide, by rfl, by rfl⟩

/-- C7, amended: a segment with a `:` whose key and value are both empty after trimming
is not skipped. The loop body calls `Header.Set` with the empty name and the empty
value, which binds the empty name to one empty value, and a `headers` string with such
a segment leaves the request with an entry for the empty name. Only segments without a
`:` set nothing, and the loop has no error path. -/
theorem blank_pair_sets_header (h : Header) (headers seg : String)
    (hseg : seg ∈ Split headers ',') (hp : specPair seg = some ("", "")) :
    setPair h seg = h.Set "" "" ∧
    (h.Set "" "") "" = some [""] ∧
    (∃ v, setCustomHeaders h headers "" = some [v]) := by
  refine ⟨?_, by rfl, ?_⟩
  · rw [setPair_eq, hp]
  · rw [setCustomHeaders_eq, setAll_lookup]
    have hmem : (("", "") : String × String) ∈ specHeaderPairs headers := by
      unfold specHeaderPairs
      rw [← Split_eq_splitOn, List.mem_filterMap]
      exact ⟨seg, hseg, hp⟩
    obtain ⟨v, hv⟩ := lastNamed_isSome_of_mem "" _ _ hmem (by decide)
    exact ⟨v, by rw [hv]⟩

/-- An instance of `blank_pair_sets_header`: the segment `:` between two regular ones. -/
theorem blank_pair_sets_header_witness :
    setPair Header.empty ":" = Header.empty.Set "" "" ∧
    (Header.empty.Set "" "") "" = some [""] ∧
    (∃ v, setCustomHeaders Header.empty "X-A: 1,:,X-B: 2" "" = some [v]) :=
  blank_pair_sets_header Header.empty "X-A: 1,:,X-B: 2" ":" (by decide) (by decide)

/-- C8, as stated, fails: `12abc` and `1.5` are not decimal integers as a whole, yet a
`timeout` entry with them moves the timeout from 30 to 12 and to 1. -/
theorem timeout_prefix_counterexample :
    isDecimalInteger "12abc" = false ∧
    (extract Char.toUpper []).timeout = 30 ∧
    (extract Char.toUpper [⟨"timeout", "12abc"⟩]).timeout = 12 ∧
    isDecimalInteger "1.5" = false ∧
    (extract Char.toUpper [⟨"timeout", "1.5"⟩]).timeout = 1 := by
  refine ⟨by decide, by decide, by decide, by decide, by decide⟩

/-- C8, amended: a `timeout` entry whose value does not begin, after leading white
space, with a decimal digit or a sign followed by one (such as `abc` or the empty
string) leaves the resolved timeout, and every other variable, as it was before that
entry (30 when nothing set it) and changes nothing in what `main` does or writes. An
entry whose value begins, within its first `hugeWid` characters, with white space free
of newlines, an optional sign and a run of decimal digits sets the timeout to that
signed integer when it fits 64 bits, whatever text follows, and leaves every variable as
it was when it does not fit. An entry with a newline in its leading white space leaves
every variable as it was. None of them produces an error. The client timeout is
`time.Duration(timeout) * time.Second`, that many seconds whenever the product fits the
64-bit nanosecond count. -/
theorem timeout_scan_spec {J : Type} (w : World J) :
    (∀ (pre post : List Param) (v : String), hasLeadingInteger v = false →
      extract w.unicodeToUpper (pre ++ [⟨"timeout", v⟩]) = extract w.unicodeToUpper pre ∧
      (extract w.unicodeToUpper [⟨"timeout", v⟩]).timeout = 30 ∧
      main w (.ok (pre ++ ⟨"timeout", v⟩ :: post)) = main w (.ok (pre ++ post))) ∧
    (∀ (pre : List Param) (ws sign ds rest : List Char), LeadingInteger ws sign ds rest →
      (fitsInt64 (signedValue sign ds) →
        extract w.unicodeToUpper (pre ++ [⟨"timeout", ⟨ws ++ sign ++ ds ++ rest⟩⟩]) =
          { extract w.unicodeToUpper pre with timeout := signedValue sign ds }) ∧
      (¬ fitsInt64 (signedValue sign ds) →
        extract w.unicodeToUpper (pre ++ [⟨"timeout", ⟨ws ++ sign ++ ds ++ rest⟩⟩]) =
          extract w.unicodeToUpper pre)) ∧
    (∀ (pre : List Param) (ws rest : List Char), (∀ c ∈ ws, isSpace c = true) →
      extract w.unicodeToUpper (pre ++ [⟨"timeout", ⟨ws ++ '\n' :: rest⟩⟩]) =
        extract w.unicodeToUpper pre) ∧
    (∀ (ps : List Param) (t : Int) (req : Request),
      (main w (.ok ps)).sent = some (t, req) →
      t = timeDuration (extract w.unicodeToUpper ps).timeout) ∧
    (∀ n : Int, -9223372036 ≤ n → n ≤ 9223372036 → timeDuration n = n * 1000000000) := by
  refine ⟨?_, ?_, ?_, ?_, timeDuration_eq⟩
  · intro pre post v hv
    have hstep := step_timeout_none w.unicodeToUpper
    have hex : extract w.unicodeToUpper (pre ++ ⟨"timeout", v⟩ :: post) =
        extract w.unicodeToUpper (pre ++ post) := by
      unfold extract
      rw [List.foldl_append, List.foldl_cons, hstep _ v hv, ← List.foldl_append]
    refine ⟨?_, ?_, main_congr w _ _ hex⟩
    · rw [extract_append, hstep _ v hv]
    · have h := extract_append w.unicodeToUpper [] ⟨"timeout", v⟩
      rw [List.nil_append, hstep _ v hv] at h
      rw [h]
      rfl
  · intro pre ws sign ds rest h
    constructor
    · intro hfit
      rw [extract_append, step_timeout, Sscanf_d_leading ws sign ds rest h,
        ParseInt_fits sign ds hfit]
    · intro hfit
      rw [extract_append, step_timeout, Sscanf_d_leading ws sign ds rest h,
        ParseInt_overflow sign ds hfit]
  · intro pre ws rest hws
    rw [extract_append, step_timeout, Sscanf_d_newline ws rest hws]
  · intro ps t req hsent
    exact (main_sent w ps t req hsent).2.2.1

/-- Instances of `timeout_scan_spec`: the value `abc` after a timeout of 5 leaves 5; the
value ` -12abc` sets -12; twenty nines followed by `abc` and the value `12` on the line
after a line break both leave the variables alone. -/
theorem timeout_scan_spec_witness :
    extract Char.toUpper ([⟨"timeout", "5"⟩] ++ [⟨"timeout", "abc"⟩]) =
      extract Char.toUpper [⟨"timeout", "5"⟩] ∧
    extract Char.toUpper ([] ++ [⟨"timeout", ⟨[' '] ++ ['-'] ++ ['1', '2'] ++ ['a', 'b', 'c']⟩⟩]) =
      { extract Char.toUpper [] with timeout := signedValue ['-'] ['1', '2'] } ∧
    extract Char.toUpper ([] ++ [⟨"timeout",
        ⟨[] ++ [] ++ "99999999999999999999".data ++ ['a', 'b', 'c']⟩⟩]) =
      extract Char.toUpper [] ∧
    extract Char.toUpper ([] ++ [⟨"timeout", ⟨[' '] ++ '\n' :: ['1', '2']⟩⟩]) =
      extract Char.toUpper [] :=
  ⟨((timeout_scan_spec exampleWorld).1 [⟨"timeout", "5"⟩] [] "abc" (by decide)).1,
    ((timeout_scan_spec exampleWorld).2.1 [] [' '] ['-'] ['1', '2'] ['a', 'b', 'c']
      ⟨by decide, by decide, by decide, by intro c h; cases h; decide, by decide⟩).1
      (by unfold fitsInt64; decide),
    ((timeout_scan_spec exampleWorld).2.1 [] [] [] "99999999999999999999".data ['a', 'b', 'c']
      ⟨by decide, by decide, by decide, by intro c h; cases h; decide, by decide⟩).2
      (by unfold fitsInt64; decide),
    (timeout_scan_spec exampleWorld).2.2.1 [] [' '] ['1', '2'] (by decide)⟩

/-- C10, as stated, fails for `timeout` and `contenttype`: after a timeout of 5 an
unreadable timeout leaves 5, while keeping only the last `timeout` entry gives 30; after
a content type `text/plain` a blank one leaves `text/plain`, while keeping only the last
`contenttype` entry gives the default. -/
theorem last_write_counterexample :
    keepLast "timeout" [⟨"timeout", "5"⟩, ⟨"timeout", "x"⟩] = [⟨"timeout", "x"⟩] ∧
    (extract Char.toUpper [⟨"timeout", "5"⟩, ⟨"timeout", "x"⟩]).timeout = 5 ∧
    (extract Char.toUpper (keepLast "timeout" [⟨"timeout", "5"⟩, ⟨"timeout", "x"⟩])).timeout
      = 30 ∧
    keepLast "contenttype" [⟨"contenttype", "text/plain"⟩, ⟨"contenttype", " "⟩] =
      [⟨"contenttype", " "⟩] ∧
    (extract Char.toUpper
      [⟨"contenttype", "text/plain"⟩, ⟨"contenttype", " "⟩]).contentType = "text/plain" ∧
    (extract Char.toUpper (keepLast "contenttype"
      [⟨"contenttype", "text/plain"⟩, ⟨"contenttype", " "⟩])).contentType =
        "application/json" := by
  refine ⟨by decide, by decide, by decide, by decide, by decide, by decide⟩

/-- C10, amended: for `url`, `method`, `headers` and `body` the resolved variables are
those of the sequence in which only the last entry of that name is kept; for `timeout`
they are those of the sequence in which, of the `timeout` entries, only the last one
that `fmt.Sscanf` can read is kept, and for `contenttype` those of the sequence in which,
of the `contenttype` entries, only the last one that is not blank is kept. -/
theorem last_effective_write_wins (up : Char → Char) (ps : List Param) :
    extract up (keepLast "url" ps) = extract up ps ∧
    extract up (keepLast "method" ps) = extract up ps ∧
    extract up (keepLast "headers" ps) = extract up ps ∧
    extract up (keepLast "body" ps) = extract up ps ∧
    extract up (keepLastWhere "timeout" (fun v => (Sscanf_d v).isSome) ps) = extract up ps ∧
    extract up (keepLastWhere "contenttype" (fun v => TrimSpace v != "") ps) =
      extract up ps := by
  unfold keepLast extract
  exact ⟨foldl_step_keepLastWhere up _ _ (overwrites_url up) ps _,
    foldl_step_keepLastWhere up _ _ (overwrites_method up) ps _,
    foldl_step_keepLastWhere up _ _ (overwrites_headers up) ps _,
    foldl_step_keepLastWhere up _ _ (overwrites_body up) ps _,
    foldl_step_keepLastWhere up _ _ (overwrites_timeout up) ps _,
    foldl_step_keepLastWhere up _ _ (overwrites_contenttype up) ps _⟩

end ComponentApi
